import Mathlib

/-!
Verification of the plan-generation and validation core of the
drive-reorganization tool (package `reorganize_hdd`).

Paths and other Python strings are modelled as `List Char` so that the
string manipulations of the source (`split("/")`, `replace`, `strip`,
`endswith`, `pathlib` stem/suffix/parent) become transparent list
programs.  Every definition mirrors the corresponding Python function of
the repository; the file ends with the theorems settling the claims.
-/

set_option maxHeartbeats 1000000

abbrev Str := List Char

/-- Python `s.replace("\\", "/")`. -/
def pyNormSlash (s : Str) : Str := s.map (fun c => if c = '\\' then '/' else c)

/-- Python `s.split("/")` (always non-empty, keeps empty segments). -/
def splitSlash : Str → List Str
  | [] => [[]]
  | c :: rest =>
    if c = '/' then [] :: splitSlash rest
    else
      match splitSlash rest with
      | [] => [[c]]
      | s :: ss => (c :: s) :: ss

/-- Python `"/".join(l)`. -/
def joinSlash : List Str → Str
  | [] => []
  | [s] => s
  | s :: rest => s ++ '/' :: joinSlash rest

/-- The last `/`-separated segment of a string (`s.split("/")[-1]`). -/
def lastSegR (s : Str) : Str := (s.reverse.takeWhile (· ≠ '/')).reverse

/-- Python `s.strip("/")`. -/
def stripSlashes (s : Str) : Str :=
  ((s.dropWhile (· = '/')).reverse.dropWhile (· = '/')).reverse

/-- Python `s.rstrip("/")`. -/
def rstripSlash (s : Str) : Str := (s.reverse.dropWhile (· = '/')).reverse

/-- Python `s.lstrip(".")`. -/
def lstripDots (s : Str) : Str := s.dropWhile (· = '.')

/-- Python `s.lower()` (ASCII as used by the repo). -/
def lowerStr (s : Str) : Str := s.map Char.toLower

/-- Python `s.endswith(t)`. -/
def endsWithS (s t : Str) : Bool := t.isSuffixOf s

/-- Python `s.startswith(t)`. -/
def startsWithS (s t : Str) : Bool := t.isPrefixOf s

/-- Python `needle in hay` on strings. -/
def containsS (hay needle : Str) : Bool := decide (needle <:+: hay)

/-- Decimal digit character. -/
def natDigitChar (n : Nat) : Char := Char.ofNat (48 + n)

/-- Python `str(n)` / `f"{n}"` for a natural number (structural fuel
recursion; the fuel `n + 1` always suffices since the argument shrinks by
a factor of ten per step). -/
def decimalDigitsAux : Nat → Nat → Str
  | 0, _ => []
  | fuel + 1, n =>
    if n < 10 then [natDigitChar n]
    else decimalDigitsAux fuel (n / 10) ++ [natDigitChar (n % 10)]

def decimalDigits (n : Nat) : Str := decimalDigitsAux (n + 1) n

/-- CPython `PurePath` stem/suffix split of a file name: the suffix is the
part from the last dot on, provided that dot is neither the first nor the
last character of the name. -/
def pySplitExt (nm : Str) : Str × Str :=
  let r := nm.reverse
  let pre := r.takeWhile (· ≠ '.')
  if 1 ≤ pre.length ∧ pre.length + 1 < nm.length then
    ((r.drop (pre.length + 1)).reverse, (r.take (pre.length + 1)).reverse)
  else (nm, [])

/-- `pathlib` path segments: `split("/")` with empty and `"."` segments
dropped (this is how `PurePosixPath` parses a path). -/
def pySegs (s : Str) : List Str :=
  (splitSlash s).filter (fun seg => decide (seg ≠ [] ∧ seg ≠ ['.']))

/-- `Path(s).name`. -/
def pyName (s : Str) : Str := (pySegs s).getLastD []

/-- `str(Path(s).parent)` (POSIX flavour, as the tool normalizes to
forward slashes before using `pathlib`). -/
def pyParentStr (s : Str) : Str :=
  let ps := (pySegs s).dropLast
  let isAbs := s.head? = some '/'
  if ps = [] then (if isAbs then ['/'] else ['.'])
  else (if isAbs then '/' :: joinSlash ps else joinSlash ps)

/-- Python `s.replace(pat, rep)` for a non-empty literal pattern
(left-to-right, non-overlapping; structural fuel recursion, where a fuel
of `s.length` always suffices because each step consumes at least one
character of the remaining string). -/
def replaceAllAux (pat rep : Str) : Nat → Str → Str
  | 0, s => s
  | _ + 1, [] => []
  | fuel + 1, c :: rest =>
    if pat ≠ [] ∧ pat.isPrefixOf (c :: rest) then
      rep ++ replaceAllAux pat rep fuel ((c :: rest).drop pat.length)
    else c :: replaceAllAux pat rep fuel rest

def replaceAll (pat rep : Str) (s : Str) : Str := replaceAllAux pat rep s.length s

/-- Gregorian leap year. -/
def isLeap (y : Nat) : Bool := y % 4 = 0 ∧ (y % 100 ≠ 0 ∨ y % 400 = 0)

def daysInMonth (y m : Nat) : Nat :=
  if m = 2 then (if isLeap y then 29 else 28)
  else if m = 4 ∨ m = 6 ∨ m = 9 ∨ m = 11 then 30
  else 31

/-- A `datetime.datetime` value (naive, second precision, as produced by
the ISO strings this repository reads and writes). -/
structure PyDateTime where
  year : Nat
  month : Nat
  day : Nat
  hour : Nat
  minute : Nat
  second : Nat
deriving Repr, DecidableEq

/-- Lexicographic key for `datetime` comparison; faithful because the
constructor below enforces the field ranges. -/
def dtKey (d : PyDateTime) : Nat :=
  ((((d.year * 13 + d.month) * 32 + d.day) * 24 + d.hour) * 60 + d.minute) * 60 + d.second

def dtLt (a b : PyDateTime) : Bool := dtKey a < dtKey b

def digitVal (c : Char) : Option Nat :=
  if '0' ≤ c ∧ c ≤ '9' then some (c.toNat - 48) else none

def num2 (a b : Char) : Option Nat := do
  pure ((← digitVal a) * 10 + (← digitVal b))

def num4 (a b c d : Char) : Option Nat := do
  pure (((← digitVal a) * 10 + (← digitVal b)) * 100 + ((← digitVal c) * 10 + (← digitVal d)))

def mkDateTime (y M d h m s : Nat) : Option PyDateTime :=
  if 1 ≤ y ∧ y ≤ 9999 ∧ 1 ≤ M ∧ M ≤ 12 ∧ 1 ≤ d ∧ d ≤ daysInMonth y M ∧
     h < 24 ∧ m < 60 ∧ s < 60 then
    some ⟨y, M, d, h, m, s⟩
  else none

/-- `datetime.fromisoformat` on the formats this repository produces and
consumes: `YYYY-MM-DD` and `YYYY-MM-DD{T| }HH:MM:SS`; anything else is a
`ValueError` (`none`). -/
def parseISO (s : Str) : Option PyDateTime :=
  match s with
  | [y1, y2, y3, y4, '-', m1, m2, '-', d1, d2] => do
    mkDateTime (← num4 y1 y2 y3 y4) (← num2 m1 m2) (← num2 d1 d2) 0 0 0
  | [y1, y2, y3, y4, '-', m1, m2, '-', d1, d2, sep, h1, h2, ':', mi1, mi2, ':', s1, s2] =>
    if sep = 'T' ∨ sep = ' ' then do
      mkDateTime (← num4 y1 y2 y3 y4) (← num2 m1 m2) (← num2 d1 d2)
        (← num2 h1 h2) (← num2 mi1 mi2) (← num2 s1 s2)
    else none
  | _ => none

/-- `calendar.month_name[m]` for `m` in `1..12`. -/
def monthName (m : Nat) : Str :=
  (match m with
   | 1 => "January" | 2 => "February" | 3 => "March" | 4 => "April"
   | 5 => "May" | 6 => "June" | 7 => "July" | 8 => "August"
   | 9 => "September" | 10 => "October" | 11 => "November" | 12 => "December"
   | _ => "").data

/-! ### Data model (`reorganize_hdd/planning/rules.py`) -/

/-- A file metadata dict as produced by the scanner; fields default to the
values used by `dict.get` in the source. -/
structure FileInfo where
  rel_path : Str := []
  ext : Str := []
  size_bytes : Int := 0
  date_taken : Option Str := none
  modified : Str := []
deriving Repr, DecidableEq

/-- `file_info.get("date_taken") or file_info.get("modified", "")`. -/
def effModified (fi : FileInfo) : Str :=
  match fi.date_taken with
  | some s => if s ≠ [] then s else fi.modified
  | none => fi.modified

structure MatchCriteria where
  ext_in : Option (List Str) := none
  ext_not_in : Option (List Str) := none
  parent_name_contains_any : Option (List Str) := none
  path_contains_any : Option (List Str) := none
  min_size_bytes : Option Int := none
  max_size_bytes : Option Int := none
  date_start : Option Str := none
  date_end : Option Str := none
deriving Repr, DecidableEq

/-- Python truthiness of an optional string. -/
def pyTruthyS : Option Str → Bool
  | none => false
  | some s => !s.isEmpty

/-- `[e.lower() if e.startswith('.') else f'.{e.lower()}' for e in l]`. -/
def normExtList (l : List Str) : List Str :=
  l.map (fun e => if startsWithS e ['.'] then lowerStr e else '.' :: lowerStr e)

/-- The date-range block of `MatchCriteria.matches` (rules.py lines
86-101), including the `except` branch that treats an unparseable
timestamp or bound as a non-match when a truthy bound is present. -/
def MatchCriteria.dateCheck (c : MatchCriteria) (modified : Str) : Bool :=
  if (c.date_start ≠ none ∨ c.date_end ≠ none) ∧ modified ≠ [] then
    match parseISO modified with
    | none => !(pyTruthyS c.date_start || pyTruthyS c.date_end)
    | some dt =>
      let resStart : Option Bool :=
        if pyTruthyS c.date_start then
          match parseISO (c.date_start.getD []) with
          | none => none
          | some dts => if dtLt dt dts then some false else some true
        else some true
      match resStart with
      | none => !(pyTruthyS c.date_start || pyTruthyS c.date_end)
      | some false => false
      | some true =>
        if pyTruthyS c.date_end then
          match parseISO (c.date_end.getD []) with
          | none => !(pyTruthyS c.date_start || pyTruthyS c.date_end)
          | some dte => if dtLt dte dt then false else true
        else true
  else true

/-- `MatchCriteria.matches` (rules.py lines 34-103). -/
def MatchCriteria.matches (c : MatchCriteria) (fi : FileInfo) : Bool :=
  let ext := lowerStr fi.ext
  let rel_path := fi.rel_path
  let size := fi.size_bytes
  let modified := effModified fi
  let parts := splitSlash rel_path
  let parent_name := if parts.length > 1 then parts.dropLast.getLastD [] else []
  if (match c.ext_in with
      | some l => !((normExtList l).contains ext)
      | none => false) then false
  else if (match c.ext_not_in with
      | some l => (normExtList l).contains ext
      | none => false) then false
  else if (match c.parent_name_contains_any with
      | some l => !(l.any (fun p => containsS (lowerStr parent_name) (lowerStr p)))
      | none => false) then false
  else if (match c.path_contains_any with
      | some l => !(l.any (fun p => containsS (lowerStr rel_path) (lowerStr p)))
      | none => false) then false
  else if (match c.min_size_bytes with
      | some m => decide (size < m)
      | none => false) then false
  else if (match c.max_size_bytes with
      | some m => decide (size > m)
      | none => false) then false
  else c.dateCheck modified

structure OrganizationRule where
  name : Str
  matchC : MatchCriteria
  target_template : Str
  priority : Int := 0
  event_name : Str := []
deriving Repr, DecidableEq

/-- Helper: string-literal list to `List Str`. -/
def strs (l : List String) : List Str := l.map String.data

def photoExts : List Str :=
  strs ["jpg", "jpeg", "png", "gif", "bmp", "tiff", "webp", "heic", "raw", "cr2", "nef"]

def videoExts : List Str :=
  strs ["mp4", "mov", "avi", "mkv", "wmv", "flv", "webm", "m4v"]

def docExts : List Str :=
  strs ["pdf", "doc", "docx", "txt", "rtf", "odt", "xls", "xlsx", "ppt", "pptx", "md"]

/-- The `{type}` classification table of `render_target`. -/
def fileTypeOf (ext : Str) : Str :=
  let e := lowerStr ext
  if photoExts.contains e then "Photos".data
  else if videoExts.contains e then "Videos".data
  else if docExts.contains e then "Documents".data
  else "Misc".data

def dupCond (prev c : Str) : Bool :=
  c == prev || endsWithS prev (" - ".data ++ c) || endsWithS prev (' ' :: c)

/-- The segment-deduplication loop of `render_target` (rules.py lines
204-222): each segment is compared with the previous *original* segment. -/
def dedupGo (prev : Str) : List Str → List Str
  | [] => []
  | c :: rest => if dupCond prev c then dedupGo c rest else c :: dedupGo c rest

def dedupSegs : List Str → List Str
  | [] => []
  | p :: rest => p :: dedupGo p rest

/-- `OrganizationRule.render_target` (rules.py lines 140-224). -/
def OrganizationRule.render_target (rule : OrganizationRule) (fi : FileInfo) : Str :=
  let rel_path := fi.rel_path
  let ext := lstripDots fi.ext
  let modified := effModified fi
  if rel_path = [] then rel_path
  else
    let parts := splitSlash rel_path
    let original_name := parts.getLastD []
    if original_name = [] then rel_path
    else
      let parent := if parts.length > 1 then parts.dropLast.getLastD [] else []
      let ym :=
        match parseISO modified with
        | some dt => (decimalDigits dt.year, monthName dt.month)
        | none => ("Unknown".data, "Unknown".data)
      let file_type := fileTypeOf ext
      let target := rule.target_template
      let target := replaceAll "{year}".data ym.1 target
      let target := replaceAll "{month}".data ym.2 target
      let target := replaceAll "{ext}".data ext target
      let target := replaceAll "{type}".data file_type target
      let target := replaceAll "{parent}".data parent target
      let target := replaceAll "{original_name}".data original_name target
      let target := replaceAll "{event_name}".data
        (if rule.event_name = [] then "Misc".data else rule.event_name) target
      let target :=
        if endsWithS target original_name then target
        else rstripSlash target ++ '/' :: original_name
      joinSlash (dedupSegs (splitSlash target))

/-! ### Plan generation (`generate_moves_from_rules`, rules.py 241-332) -/

structure MoveOut where
  old_rel : Str
  new_rel : Str
  reason : Str
deriving Repr, DecidableEq

/-- One collision candidate `f"{parent}/{stem}_{counter}{suffix}"`
followed by the source's slash normalization. -/
def mkCandidate (base : Str) (counter : Nat) : Str :=
  let nm := pyName base
  let se := pySplitExt nm
  let parent0 := pyParentStr base
  let parent := if parent0 = ['.'] then [] else parent0
  let core := se.1 ++ '_' :: decimalDigits counter ++ se.2
  pyNormSlash (if parent ≠ [] then parent ++ '/' :: core else core)

/-- The collision `while True` loop (rules.py 300-321): scan counters
upward until an unused candidate is found, giving up past 100000.  The
structural fuel `100001 - counter` is exactly the number of remaining
iterations, so `findSlot` equals the source loop on every input. -/
def findSlotAux (seen : List Str) (base : Str) : Nat → Nat → Option (Str × Nat)
  | 0, _ => none
  | fuel + 1, counter =>
    if counter > 100000 then none
    else
      let candidate := mkCandidate base counter
      if seen.contains candidate then findSlotAux seen base fuel (counter + 1)
      else some (candidate, counter)

def findSlot (seen : List Str) (base : Str) (counter : Nat) : Option (Str × Nat) :=
  findSlotAux seen base (100001 - counter) counter

/-- The inner `for rule in sorted_rules` loop for one record.  Returns the
yielded move plus the counter-cache update, or `none` when the record
produces no move.  Mirrors the source exactly, including the `continue`
(to the *next rule*) on a no-op render and the `break` on collision
overflow. -/
def applyRulesToFile (seen : List Str) (counters : List (Str × Nat)) (old_rel : Str)
    (fi : FileInfo) : List OrganizationRule → Option (MoveOut × Option (Str × Nat))
  | [] => none
  | rule :: rest =>
    if rule.matchC.matches fi then
      let new_rel := pyNormSlash (rule.render_target fi)
      if old_rel = new_rel then applyRulesToFile seen counters old_rel fi rest
      else if seen.contains new_rel then
        match findSlot seen new_rel ((counters.lookup new_rel).getD 1) with
        | none => none
        | some (cand, c) => some (⟨old_rel, cand, rule.name⟩, some (new_rel, c + 1))
      else some (⟨old_rel, new_rel, rule.name⟩, none)
    else applyRulesToFile seen counters old_rel fi rest

/-- The record loop of `generate_moves_from_rules`, carrying
`seen_destinations` and `next_counters`. -/
def genAux (rules : List OrganizationRule) (seen : List Str) (counters : List (Str × Nat)) :
    List FileInfo → List MoveOut
  | [] => []
  | fi :: fs =>
    if fi.rel_path = [] then genAux rules seen counters fs
    else
      let old_rel := pyNormSlash fi.rel_path
      match applyRulesToFile seen counters old_rel fi rules with
      | none => genAux rules seen counters fs
      | some (mv, ctrUpd) =>
        mv :: genAux rules (mv.new_rel :: seen)
          (match ctrUpd with
           | some kv => kv :: counters
           | none => counters) fs

/-- Stable insertion into a list sorted by descending priority: an
element is placed before every later element of priority ≤ its own, which
reproduces Python's stable `sorted(rules, key=lambda r: -r.priority)`. -/
def insertRuleDesc (r : OrganizationRule) : List OrganizationRule → List OrganizationRule
  | [] => [r]
  | x :: xs => if x.priority ≤ r.priority then r :: x :: xs else x :: insertRuleDesc r xs

def sortRulesDesc : List OrganizationRule → List OrganizationRule
  | [] => []
  | r :: rest => insertRuleDesc r (sortRulesDesc rest)

/-- `generate_moves_from_rules` (rules.py 241-332), with the generator
materialized as the list of yielded moves. -/
def generate_moves_from_rules (files : List FileInfo) (rules : List OrganizationRule) :
    List MoveOut :=
  genAux (sortRulesDesc rules) [] [] files

/-! ### Bundle detection (`reorganize_hdd/utils.py` 63-121) -/

def MACOS_BUNDLE_EXTENSIONS : List Str :=
  strs [".app", ".bundle", ".plugin", ".kext", ".prefpane",
        ".qlgenerator", ".mdimporter", ".xpc", ".appex",
        ".dvdproj", ".imovieproject", ".fcpproject", ".fcpbundle",
        ".fcp", ".dspproj", ".prproj", ".photoslibrary", ".aplibrary"]

def BUNDLE_FOLDERS : List Str :=
  strs ["VIDEO_TS", "AUDIO_TS", "HVDVD_TS", "BDMV", "CERTIFICATE",
        "DCIM", "PRIVATE", "AVCHD", "MP_ROOT", "Capture Scratch", "Render Files",
        "Waveform Cache Files", "Thumbnail Cache Files", "Final Cut Pro Documents"]

def is_known_bundle_folder (name : Str) : Bool := BUNDLE_FOLDERS.contains name

def is_macos_bundle (seg : Str) : Bool :=
  MACOS_BUNDLE_EXTENSIONS.any (fun e => endsWithS (lowerStr seg) e)

/-- `path_contains_bundle` (utils.py 107-121).  Note: it tests only
`is_macos_bundle` on the non-final segments; `BUNDLE_FOLDERS` names are
not consulted here. -/
def path_contains_bundle (rel_path : Str) : Bool :=
  ((splitSlash (pyNormSlash rel_path)).dropLast).any is_macos_bundle

/-! ### Plan validation (`reorganize_hdd/planning/validator.py`) -/

/-- A proposed move as found in a plan dict (fields default like
`move.get(..., "")`). -/
structure MoveIn where
  old_rel : Str := []
  new_rel : Str := []
  reason : Option Str := none
deriving Repr, DecidableEq

/-- A recorded per-move warning (the source formats these as strings and
prints them; only the tag and payload matter here). -/
inductive VWarn
  | rename (old_rel new_name : Str)
  | srcBundle (old_rel : Str)
  | dstBundle (new_rel : Str)
  | notFound (old_rel : Str)
  | notFile (old_rel : Str)
deriving Repr, DecidableEq

structure Collision where
  existing_source : Str
  old_rel : Str
  new_rel : Str
deriving Repr, DecidableEq

/-- The filesystem as consulted by the validator, keyed by the path
relative to the root (`root / rel`). -/
structure FsView where
  isFile : Str → Bool
  isDir : Str → Bool

def FsView.existsAt (fs : FsView) (p : Str) : Bool := fs.isFile p || fs.isDir p

inductive VOutcome
  | rootNotFound
  | collisionFailure (collisions : List Collision)
  | ok (moves : List MoveOut)
deriving Repr, DecidableEq

structure VResult where
  warnings : List VWarn
  collisions : List Collision
  outcome : VOutcome
deriving Repr, DecidableEq

/-- Source-path name as used by `src_path.name`: the last `pathlib`
segment of the relative path, or the root directory's own name when the
relative path has no segments. -/
def srcNameOf (rootName old_rel : Str) : Str :=
  let nm := pyName old_rel
  if nm = [] then rootName else nm

/-- The per-move loop of `validate_plan` (validator.py 49-117), threading
`destinations` (dest → first source) and `seen_moves`; returns the
warnings, collisions and valid moves in source order. -/
def vLoop (fs : FsView) (rootName : Str) :
    List MoveIn → List (Str × Str) → List (Str × Str) →
    List VWarn × List Collision × List MoveOut
  | [], _, _ => ([], [], [])
  | mv :: rest, dests, seen =>
    let old_rel := stripSlashes (pyNormSlash mv.old_rel)
    let new_rel := stripSlashes (pyNormSlash mv.new_rel)
    if old_rel = new_rel then vLoop fs rootName rest dests seen
    else if seen.contains (old_rel, new_rel) then vLoop fs rootName rest dests seen
    else
      let seen' := (old_rel, new_rel) :: seen
      let old_parts := splitSlash old_rel
      let new_parts := splitSlash new_rel
      let old_dir := joinSlash old_parts.dropLast
      let new_dir := joinSlash new_parts.dropLast
      let old_name := old_parts.getLastD []
      let new_name := new_parts.getLastD []
      if old_dir = new_dir ∧ old_name ≠ new_name then
        let r := vLoop fs rootName rest dests seen'
        (.rename old_rel new_name :: r.1, r.2.1, r.2.2)
      else if path_contains_bundle old_rel then
        let r := vLoop fs rootName rest dests seen'
        (.srcBundle old_rel :: r.1, r.2.1, r.2.2)
      else if path_contains_bundle new_rel then
        let r := vLoop fs rootName rest dests seen'
        (.dstBundle new_rel :: r.1, r.2.1, r.2.2)
      else if ¬ fs.existsAt old_rel then
        let r := vLoop fs rootName rest dests seen'
        (.notFound old_rel :: r.1, r.2.1, r.2.2)
      else
        let srcName := srcNameOf rootName old_rel
        let is_bundle_dir :=
          fs.isDir old_rel && (is_known_bundle_folder srcName || is_macos_bundle srcName)
        if ¬ fs.isFile old_rel ∧ ¬ is_bundle_dir then
          let r := vLoop fs rootName rest dests seen'
          (.notFile old_rel :: r.1, r.2.1, r.2.2)
        else
          match dests.lookup new_rel with
          | some existing_source =>
            if existing_source ≠ old_rel then
              let r := vLoop fs rootName rest dests seen'
              (r.1, ⟨existing_source, old_rel, new_rel⟩ :: r.2.1, r.2.2)
            else vLoop fs rootName rest dests seen'
          | none =>
            let r := vLoop fs rootName rest ((new_rel, old_rel) :: dests) seen'
            (r.1, r.2.1,
              ⟨old_rel, new_rel, mv.reason.getD "No reason provided".data⟩ :: r.2.2)

/-- `validate_plan` (validator.py 12-144): raises `RuntimeError` when the
root does not exist, collects per-move warnings, and raises `ValueError`
when any destination collision between distinct sources was recorded;
otherwise returns the filtered moves. -/
def validate_plan (fs : FsView) (rootExists : Bool) (rootName : Str)
    (moves : List MoveIn) : VResult :=
  if ¬ rootExists then ⟨[], [], .rootNotFound⟩
  else
    let r := vLoop fs rootName moves [] []
    if r.2.1 ≠ [] then ⟨r.1, r.2.1, .collisionFailure r.2.1⟩
    else ⟨r.1, r.2.1, .ok r.2.2⟩

/-! ### Execution (`reorganize_hdd/executor.py`)

The filesystem under the root is modelled as finite lists of relative
file and directory paths; the undo journals written by the executor are a
list of runs, each a list of `(old_rel, new_rel)` inverse entries.
Thread-pool execution is modelled sequentially (each move's effect is an
atomic rename and moves in a plan target pairwise distinct paths, so the
interleaving does not affect the final state). -/

structure World where
  files : List Str
  dirs : List Str
  journals : List (List (Str × Str))
deriving Repr, DecidableEq

inductive PyError
  | importError (msg : Str)
  | runtimeError (msg : Str)
deriving Repr, DecidableEq

structure Report where
  dry_run : Bool
  created_folders_count : Nat
  executed_moves_count : Nat
  failed_moves_count : Nat
  cleaned_folders_count : Nat
deriving Repr, DecidableEq

def World.existsAt (w : World) (p : Str) : Bool :=
  p.isEmpty || w.files.contains p || w.dirs.contains p

/-- All non-empty ancestor prefixes of a path, shortest first. -/
def ancestorChain (p : Str) : List Str :=
  let segs := pySegs p
  (List.range segs.length).map (fun i => joinSlash (segs.take (i + 1)))

/-- `path.mkdir(parents=True, exist_ok=True)` for a relative directory. -/
def World.mkdirParents (w : World) (p : Str) : World :=
  { w with dirs :=
      ((ancestorChain p).foldl (fun ds d => if ds.contains d then ds else d :: ds) w.dirs) }

/-- Parent of a relative path (`Path(p).parent` relative to the root;
`[]` denotes the root itself). -/
def relParent (p : Str) : Str := joinSlash (pySegs p).dropLast

/-- Rebase `p` from the `src` subtree onto `dst` (effect of moving a
directory with its contents). -/
def rebasePath (src dst p : Str) : Str :=
  if (pySegs src).isPrefixOf (pySegs p) ∧ p ≠ src then
    joinSlash (pySegs dst ++ (pySegs p).drop (pySegs src).length)
  else p

/-- `shutil.move` on the world (file rename, or directory rename carrying
its contents). -/
def World.movePath (w : World) (src dst : Str) : World :=
  if w.files.contains src then
    { w with files := dst :: w.files.erase src }
  else if w.dirs.contains src then
    { files := w.files.map (rebasePath src dst),
      dirs := dst :: (w.dirs.erase src).map (rebasePath src dst),
      journals := w.journals }
  else w

/-- `_move_file` (executor.py 17-67).  Returns the new world and whether
the move went through (`"moved"` vs `"skipped"`). -/
def move_file (deviceOf : Str → Nat) (root_device : Nat) (allow_cross_device : Bool)
    (w : World) (old_rel new_rel : Str) : World × Bool :=
  if w.existsAt new_rel then (w, false)
  else if ¬ w.existsAt old_rel then (w, false)
  else if ¬ allow_cross_device ∧ w.existsAt (relParent new_rel) ∧
          deviceOf (relParent new_rel) ≠ root_device then (w, false)
  else if ¬ allow_cross_device ∧ deviceOf old_rel ≠ root_device then (w, false)
  else
    let w := if ¬ w.existsAt (relParent new_rel) then w.mkdirParents (relParent new_rel) else w
    (w.movePath old_rel new_rel, true)

/-- Is any `pathlib` segment of `p` a protected bundle (the check of
`cleanup_empty_dirs`, executor.py 305-321)? -/
def cleanupProtected (p : Str) : Bool :=
  (pySegs p).any (fun part => is_known_bundle_folder part || is_macos_bundle part)

def dirDepth (p : Str) : Nat := (pySegs p).length

/-- Insert into a list sorted by decreasing depth (bottom-up walk order). -/
def insertByDepth (d : Str) : List Str → List Str
  | [] => [d]
  | x :: xs => if dirDepth x ≤ dirDepth d then d :: x :: xs else x :: insertByDepth d xs

def sortByDepthDesc : List Str → List Str
  | [] => []
  | d :: rest => insertByDepth d (sortByDepthDesc rest)

def World.isEmptyDir (w : World) (d : Str) : Bool :=
  ¬ (w.files.any (fun f => (pySegs d).isPrefixOf (pySegs f) ∧ f ≠ d) ||
     w.dirs.any (fun f => (pySegs d).isPrefixOf (pySegs f) ∧ f ≠ d))

/-- `cleanup_empty_dirs` (executor.py 277-340): a bottom-up walk that
removes directories that are empty, not protected by a bundle segment,
and not freshly created in this run. -/
def cleanup_empty_dirs (w : World) (keep_folders : List Str) : World × Nat :=
  (sortByDepthDesc w.dirs).foldl
    (fun (acc : World × Nat) d =>
      let (w, n) := acc
      if keep_folders.contains d then (w, n)
      else if cleanupProtected d then (w, n)
      else if w.dirs.contains d ∧ w.isEmptyDir d then
        ({ w with dirs := w.dirs.erase d }, n + 1)
      else (w, n))
    (w, 0)

/-- Split into batches of `BATCH_SIZE = 1000` (executor.py 185, 236-243;
structural fuel recursion, `l.length` steps always suffice). -/
def toBatchesAux : Nat → List MoveIn → List (List MoveIn)
  | 0, _ => []
  | fuel + 1, l => if l = [] then [] else l.take 1000 :: toBatchesAux fuel (l.drop 1000)

def toBatches (l : List MoveIn) : List (List MoveIn) := toBatchesAux l.length l

/-- Normalization applied by `valid_moves_filter` (executor.py 121-127). -/
def normMoveIn (m : MoveIn) : MoveIn :=
  { m with old_rel := stripSlashes (pyNormSlash m.old_rel),
           new_rel := stripSlashes (pyNormSlash m.new_rel) }

/-- One batch of the non-dry-run path: create destination parents for the
whole batch, then perform each move, journalling the inverse of each
successful one into the current run's journal (head of `journals`). -/
def processBatch (deviceOf : Str → Nat) (root_device : Nat) (allow_cross_device : Bool)
    (batch : List MoveIn) (acc : World × Nat × Nat) : World × Nat × Nat :=
  let w1 := batch.foldl
    (fun (w : World) m =>
      let dstParent := relParent (pyNormSlash m.new_rel)
      w.mkdirParents dstParent) acc.1
  batch.foldl
    (fun (st : World × Nat × Nat) m =>
      let (w, ex, fl) := st
      let (w', moved) := move_file deviceOf root_device allow_cross_device w m.old_rel m.new_rel
      if moved then
        let w'' := { w' with journals :=
          match w'.journals with
          | j :: js => ((m.new_rel, m.old_rel) :: j) :: js
          | [] => [[(m.new_rel, m.old_rel)]] }
        (w'', ex + 1, fl)
      else (w', ex, fl + 1))
    (w1, acc.2.1, acc.2.2)

/-- The folder-creation loop (executor.py 157-171): a missing folder is
recorded in `created_folders` in both modes but materialized only when
not dry-run. -/
def createFolders (folders : List Str) (dry_run : Bool) (w : World) : World × List Str :=
  folders.foldl
    (fun (acc : World × List Str) folder_rel0 =>
      let folder_rel := stripSlashes (pyNormSlash folder_rel0)
      if folder_rel = [] then acc
      else if acc.1.existsAt folder_rel then acc
      else if dry_run then (acc.1, acc.2 ++ [folder_rel])
      else (acc.1.mkdirParents folder_rel, acc.2 ++ [folder_rel]))
    (w, [])

/-- The body of `apply_plan` from line 87 on, i.e. what the function would
do if its first statement — `from .utils import load_jsonl, save_jsonl` —
succeeded.  `rootExists` abstracts `root.resolve().exists()`. -/
def apply_plan_body (rootExists : Bool) (root_device : Nat) (deviceOf : Str → Nat)
    (folders_to_create : List Str) (moves : List MoveIn)
    (dry_run allow_cross_device : Bool) (w : World) : Except PyError Report × World :=
  if ¬ rootExists then
    (Except.error (.runtimeError "Root directory not found".data), w)
  else
    let nmoves := moves.map normMoveIn
    let w1 := if dry_run then w else { w with journals := [] :: w.journals }
    let (w2, created_folders) := createFolders folders_to_create dry_run w1
    let (w3, executed, failed) :=
      if dry_run then (w2, nmoves.length, 0)
      else (toBatches nmoves).foldl
        (fun acc batch => processBatch deviceOf root_device allow_cross_device batch acc)
        (w2, 0, 0)
    let (w4, cleaned) :=
      if dry_run then (w3, 0)
      else cleanup_empty_dirs w3 created_folders
    (Except.ok { dry_run := dry_run, created_folders_count := created_folders.length,
                 executed_moves_count := executed, failed_moves_count := failed,
                 cleaned_folders_count := cleaned }, w4)

/-- `apply_plan` (executor.py 70-272) as it actually executes: its first
statement is `from .utils import load_jsonl, save_jsonl`, and `utils.py`
defines neither name, so every invocation raises `ImportError` before the
root check, the journal, or any filesystem access. -/
def apply_plan (rootExists : Bool) (root_device : Nat) (deviceOf : Str → Nat)
    (folders_to_create : List Str) (moves : List MoveIn)
    (dry_run allow_cross_device : Bool) (w : World) : Except PyError Report × World :=
  (Except.error (.importError
    "cannot import name load_jsonl from reorganize_hdd.utils".data), w)

/-! ### Basic lemmas about the string model -/

theorem splitSlash_ne_nil (s : Str) : splitSlash s ≠ [] := by
  induction s with
  | nil => simp [splitSlash]
  | cons c rest ih =>
    simp only [splitSlash]
    split
    · simp
    · split <;> simp

theorem joinSlash_splitSlash (s : Str) : joinSlash (splitSlash s) = s := by
  induction s with
  | nil => rfl
  | cons c rest ih =>
    simp only [splitSlash]
    split
    · rename_i hc
      subst hc
      cases h : splitSlash rest with
      | nil => exact absurd h (splitSlash_ne_nil rest)
      | cons x xs =>
        rw [h] at ih
        simpa [joinSlash] using ih
    · rename_i hc
      cases h : splitSlash rest with
      | nil => exact absurd h (splitSlash_ne_nil rest)
      | cons x xs =>
        rw [h] at ih
        cases xs with
        | nil => simpa [joinSlash] using ih
        | cons y ys => simpa [joinSlash] using ih

theorem mem_splitSlash_no_slash (s : Str) : ∀ seg ∈ splitSlash s, '/' ∉ seg := by
  induction s with
  | nil => intro seg h; simp [splitSlash] at h; simp [h]
  | cons c rest ih =>
    intro seg h
    simp only [splitSlash] at h
    split at h
    · rcases List.mem_cons.mp h with h | h
      · simp [h]
      · exact ih seg h
    · rename_i hc
      cases hs : splitSlash rest with
      | nil => exact absurd hs (splitSlash_ne_nil rest)
      | cons x xs =>
        rw [hs] at h
        rcases List.mem_cons.mp h with h | h
        · intro hmem
          rw [h] at hmem
          rcases List.mem_cons.mp hmem with h1 | h1
          · exact hc h1.symm
          · exact ih x (hs ▸ List.mem_cons_self x xs) h1
        · exact ih seg (hs ▸ List.mem_cons_of_mem x h)

theorem getLastD_cons_of_ne_nil {α : Type} (a d : α) (l : List α) (h : l ≠ []) :
    (a :: l).getLastD d = l.getLastD d := by
  cases l with
  | nil => exact absurd rfl h
  | cons b bs => rfl

theorem getLastD_mem {α : Type} (d : α) (l : List α) (h : l ≠ []) : l.getLastD d ∈ l := by
  induction l with
  | nil => exact absurd rfl h
  | cons a as ih =>
    cases as with
    | nil => simp [List.getLastD]
    | cons b bs =>
      rw [getLastD_cons_of_ne_nil a d (b :: bs) (by simp)]
      exact List.mem_cons_of_mem a (ih (by simp))

theorem takeWhile_all {α : Type} (p : α → Bool) (l : List α) (h : l.all p = true) :
    l.takeWhile p = l := by
  induction l with
  | nil => rfl
  | cons a as ih =>
    simp only [List.all_cons, Bool.and_eq_true] at h
    simp [List.takeWhile_cons, h.1, ih h.2]

theorem takeWhile_append_of_all {α : Type} (p : α → Bool) (a b : List α)
    (h : a.all p = true) : (a ++ b).takeWhile p = a ++ b.takeWhile p := by
  induction a with
  | nil => simp
  | cons x xs ih =>
    simp only [List.all_cons, Bool.and_eq_true] at h
    simp [List.takeWhile_cons, h.1, ih h.2]

theorem takeWhile_append_of_not_all {α : Type} (p : α → Bool) (a b : List α)
    (h : a.all p = false) : (a ++ b).takeWhile p = a.takeWhile p := by
  induction a with
  | nil => simp at h
  | cons x xs ih =>
    simp only [List.all_cons, Bool.and_eq_false_iff] at h
    rcases h with h | h
    · simp [List.takeWhile_cons, h]
    · cases hx : p x with
      | false => simp [List.takeWhile_cons, hx]
      | true => simp [List.takeWhile_cons, hx, ih h]

theorem noSlash_splitSlash (s : Str) (h : '/' ∉ s) : splitSlash s = [s] := by
  induction s with
  | nil => rfl
  | cons c rest ih =>
    simp only [List.mem_cons, not_or] at h
    simp only [splitSlash]
    rw [if_neg (fun hc => h.1 hc.symm)]
    rw [ih h.2]

theorem lastSegR_no_slash (s : Str) : '/' ∉ lastSegR s := by
  intro h
  rw [lastSegR, List.mem_reverse] at h
  have := List.mem_takeWhile_imp h
  simp at this

theorem lastSegR_of_no_slash (s : Str) (h : '/' ∉ s) : lastSegR s = s := by
  rw [lastSegR, takeWhile_all _ _ ?_, List.reverse_reverse]
  rw [List.all_eq_true]
  intro c hc
  simp only [decide_eq_true_eq]
  intro hcs
  exact h (by rw [← hcs]; exact (List.mem_reverse).mp hc)

theorem lastSegR_append_slash_cons (u v : Str) : lastSegR (u ++ '/' :: v) = lastSegR v := by
  rw [lastSegR, lastSegR]
  have : (u ++ '/' :: v).reverse = v.reverse ++ ('/' :: u.reverse) := by
    simp
  rw [this]
  cases hall : v.reverse.all (fun c => decide (c ≠ '/')) with
  | true =>
    rw [takeWhile_append_of_all _ _ _ hall, takeWhile_all _ _ hall]
    simp [List.takeWhile_cons]
  | false =>
    rw [takeWhile_append_of_not_all _ _ _ hall]

theorem lastSegR_cons_slash (v : Str) : lastSegR ('/' :: v) = lastSegR v := by
  have := lastSegR_append_slash_cons [] v
  simpa using this

theorem takeWhile_prefix_mono {α : Type} (p : α → Bool) (a b : List α) (h : a <+: b) :
    a.takeWhile p <+: b.takeWhile p := by
  obtain ⟨c, rfl⟩ := h
  cases hall : a.all p with
  | true =>
    rw [takeWhile_append_of_all _ _ _ hall, takeWhile_all _ _ hall]
    exact ⟨c.takeWhile p, rfl⟩
  | false =>
    rw [takeWhile_append_of_not_all _ _ _ hall]

theorem lastSegR_suffix_mono (u s : Str) (h : u <:+ s) : lastSegR u <:+ lastSegR s := by
  rw [lastSegR, lastSegR, ← List.reverse_prefix]
  simp only [List.reverse_reverse]
  exact takeWhile_prefix_mono _ _ _ (List.reverse_prefix.mpr h)

theorem splitSlash_getLastD_eq_lastSegR (s : Str) :
    (splitSlash s).getLastD [] = lastSegR s := by
  induction s with
  | nil => rfl
  | cons c rest ih =>
    simp only [splitSlash]
    split
    · rename_i hc
      subst hc
      rw [getLastD_cons_of_ne_nil _ _ _ (splitSlash_ne_nil rest), ih, lastSegR_cons_slash]
    · rename_i hc
      cases hs : splitSlash rest with
      | nil => exact absurd hs (splitSlash_ne_nil rest)
      | cons x xs =>
        cases xs with
        | nil =>
          have hrest : rest = x := by
            have hj := joinSlash_splitSlash rest
            rw [hs] at hj
            simpa [joinSlash] using hj.symm
          have hnos : '/' ∉ rest := by
            rw [hrest]
            exact mem_splitSlash_no_slash rest x (hs ▸ List.mem_cons_self x [])
          simp only [List.getLastD]
          rw [lastSegR_of_no_slash _ ?_]
          · simp [List.getLastD, hrest]
          · simp only [List.mem_cons, not_or]
            exact ⟨fun h => hc h.symm, hnos⟩
        | cons y ys =>
          rw [getLastD_cons_of_ne_nil _ _ _ (by simp)]
          rw [hs] at ih
          rw [getLastD_cons_of_ne_nil _ _ _ (by simp)] at ih
          rw [ih]
          have hslash : '/' ∈ rest := by
            by_contra hno
            rw [noSlash_splitSlash rest hno] at hs
            simp at hs
          rw [lastSegR, lastSegR]
          have : (c :: rest).reverse = rest.reverse ++ [c] := by simp
          rw [this, takeWhile_append_of_not_all]
          rw [List.all_eq_false]
          exact ⟨'/', List.mem_reverse.mpr hslash, by simp⟩

theorem endsWithS_iff (s t : Str) : endsWithS s t = true ↔ t <:+ s := by
  rw [endsWithS]
  exact List.isSuffixOf_iff_suffix

theorem joinSlash_decomp (l : List Str) (h : l ≠ []) :
    ∃ pre, joinSlash l = pre ++ l.getLastD [] ∧ (pre = [] ∨ ∃ p0, pre = p0 ++ ['/']) := by
  induction l with
  | nil => exact absurd rfl h
  | cons x xs ih =>
    cases xs with
    | nil => exact ⟨[], by simp [joinSlash, List.getLastD], Or.inl rfl⟩
    | cons y ys =>
      obtain ⟨pre, hpre, hend⟩ := ih (by simp)
      refine ⟨x ++ '/' :: pre, ?_, ?_⟩
      · rw [getLastD_cons_of_ne_nil _ _ _ (by simp)]
        show x ++ '/' :: joinSlash (y :: ys) = _
        rw [hpre]
        simp
      · rcases hend with hend | ⟨p0, hp0⟩
        · exact Or.inr ⟨x, by simp [hend]⟩
        · exact Or.inr ⟨x ++ '/' :: p0, by simp [hp0]⟩

theorem getLastD_filter_of_last {α : Type} (p : α → Bool) (l : List α) (d : α)
    (hne : l ≠ []) (hp : p (l.getLastD d) = true) :
    (l.filter p).getLastD d = l.getLastD d := by
  induction l using List.reverseRecOn with
  | nil => exact absurd rfl hne
  | append_singleton xs a ih =>
    rw [List.getLastD_concat] at hp
    rw [List.getLastD_concat, List.filter_append, List.filter_cons, hp]
    simp [List.getLastD_concat]

theorem pySplitExt_append (nm : Str) : (pySplitExt nm).1 ++ (pySplitExt nm).2 = nm := by
  rw [pySplitExt]
  split
  · simp only
    rw [← List.reverse_append, List.take_append_drop, List.reverse_reverse]
  · simp

theorem pySplitExt_fst_subset (nm : Str) : ∀ c ∈ (pySplitExt nm).1, c ∈ nm := by
  intro c hc
  have := pySplitExt_append nm
  rw [← this]
  exact List.mem_append_left _ hc

theorem pySplitExt_snd_subset (nm : Str) : ∀ c ∈ (pySplitExt nm).2, c ∈ nm := by
  intro c hc
  have := pySplitExt_append nm
  rw [← this]
  exact List.mem_append_right _ hc

theorem pyName_cases (s : Str) : pyName s = [] ∨ pyName s ∈ splitSlash s := by
  by_cases h : pySegs s = []
  · left
    rw [pyName, h]
    rfl
  · right
    have hmem : pyName s ∈ pySegs s := getLastD_mem _ _ h
    rw [pySegs] at hmem
    exact List.mem_of_mem_filter hmem

theorem pyName_no_slash (s : Str) : '/' ∉ pyName s := by
  rcases pyName_cases s with h | h
  · simp [h]
  · exact mem_splitSlash_no_slash s _ h

theorem decimalDigits_ne_nil (n : Nat) : decimalDigits n ≠ [] := by
  rw [decimalDigits, decimalDigitsAux]
  split <;> simp

theorem natDigitChar_bounds (k : Nat) (h : k < 10) :
    '0' ≤ natDigitChar k ∧ natDigitChar k ≤ '9' := by
  interval_cases k <;> decide

theorem decimalDigitsAux_chars (fuel : Nat) :
    ∀ (n : Nat), ∀ c ∈ decimalDigitsAux fuel n, '0' ≤ c ∧ c ≤ '9' := by
  induction fuel with
  | zero => intro n c hc; simp [decimalDigitsAux] at hc
  | succ fuel ih =>
    intro n c hc
    rw [decimalDigitsAux] at hc
    split at hc
    · rename_i h
      simp only [List.mem_singleton] at hc
      subst hc
      exact natDigitChar_bounds n h
    · rcases List.mem_append.mp hc with h1 | h1
      · exact ih (n / 10) c h1
      · simp only [List.mem_singleton] at h1
        subst h1
        exact natDigitChar_bounds _ (Nat.mod_lt n (by omega))

theorem decimalDigits_chars (n : Nat) : ∀ c ∈ decimalDigits n, '0' ≤ c ∧ c ≤ '9' :=
  decimalDigitsAux_chars (n + 1) n

theorem decimalDigits_no_slash (n : Nat) : '/' ∉ decimalDigits n := by
  intro h
  exact absurd (decimalDigits_chars n '/' h) (by decide)

theorem decimalDigits_no_backslash (n : Nat) : '\\' ∉ decimalDigits n := by
  intro h
  exact absurd (decimalDigits_chars n '\\' h) (by decide)

theorem pyNormSlash_append (a b : Str) :
    pyNormSlash (a ++ b) = pyNormSlash a ++ pyNormSlash b := by
  simp [pyNormSlash]

theorem pyNormSlash_no_backslash (s : Str) : '\\' ∉ pyNormSlash s := by
  intro h
  rw [pyNormSlash] at h
  obtain ⟨c, _, hc⟩ := List.mem_map.mp h
  by_cases hcc : c = '\\'
  · rw [if_pos hcc] at hc
    exact absurd hc (by decide)
  · rw [if_neg hcc] at hc
    exact hcc hc

theorem pyNormSlash_of_no_backslash (s : Str) (h : '\\' ∉ s) : pyNormSlash s = s := by
  rw [pyNormSlash]
  conv_rhs => rw [← List.map_id s]
  apply List.map_congr_left
  intro c hc
  simp only [id]
  rw [if_neg]
  intro hcc
  exact h (hcc ▸ hc)

theorem pyNormSlash_suffix_mono (u s : Str) (h : u <:+ s) :
    pyNormSlash u <:+ pyNormSlash s := List.IsSuffix.map _ h

theorem dupCond_suffix (prev c : Str) (h : dupCond prev c = true) : c <:+ prev := by
  rw [dupCond, Bool.or_eq_true, Bool.or_eq_true] at h
  rcases h with (h | h) | h
  · exact (beq_iff_eq.mp h) ▸ List.suffix_refl c
  · exact (List.suffix_append (" - ".data) c).trans ((endsWithS_iff _ _).mp h)
  · exact (List.suffix_append [' '] c).trans ((endsWithS_iff _ _).mp h)

theorem dedupGo_last (name : Str) :
    ∀ (rest : List Str) (prev : Str), name <:+ (prev :: rest).getLastD [] →
      name <:+ ((prev :: dedupGo prev rest).getLastD []) := by
  intro rest
  induction rest with
  | nil => intro prev h; simpa [dedupGo] using h
  | cons c rs ih =>
    intro prev h
    rw [getLastD_cons_of_ne_nil _ _ _ (by simp)] at h
    simp only [dedupGo]
    by_cases hd : dupCond prev c = true
    · rw [if_pos hd]
      have h2 := ih c h
      cases hgo : dedupGo c rs with
      | nil =>
        rw [hgo] at h2
        simp only [List.getLastD] at h2 ⊢
        exact h2.trans (dupCond_suffix prev c hd)
      | cons g gs =>
        rw [hgo] at h2
        rw [getLastD_cons_of_ne_nil _ _ _ (by simp)] at h2
        rw [getLastD_cons_of_ne_nil _ _ _ (by simp)]
        exact h2
    · rw [if_neg hd]
      rw [getLastD_cons_of_ne_nil _ _ _ (by simp)]
      exact ih c h

theorem getLastD_suffix_joinSlash (l : List Str) (h : l ≠ []) :
    l.getLastD [] <:+ joinSlash l := by
  obtain ⟨pre, hpre, _⟩ := joinSlash_decomp l h
  rw [hpre]
  exact List.suffix_append pre _

/-- If `name` is a slash-free suffix of `t`, it is a suffix of the
deduplicated, re-joined form of `t`. -/
theorem append_step_suffix (T name : Str) :
    name <:+ (if endsWithS T name then T else rstripSlash T ++ '/' :: name) := by
  split
  · rename_i h
    exact (endsWithS_iff _ _).mp h
  · have : rstripSlash T ++ '/' :: name = (rstripSlash T ++ ['/']) ++ name := by simp
    rw [this]
    exact List.suffix_append _ _

theorem dedup_join_preserves_suffix (name t : Str) (hslash : '/' ∉ name)
    (h : name <:+ t) : name <:+ joinSlash (dedupSegs (splitSlash t)) := by
  have h1 : name <:+ (splitSlash t).getLastD [] := by
    rw [splitSlash_getLastD_eq_lastSegR]
    have := lastSegR_suffix_mono name t h
    rwa [lastSegR_of_no_slash name hslash] at this
  cases hs : splitSlash t with
  | nil => exact absurd hs (splitSlash_ne_nil t)
  | cons p rest =>
    rw [hs] at h1
    have h2 := dedupGo_last name rest p h1
    simp only [dedupSegs]
    exact h2.trans (getLastD_suffix_joinSlash _ (by simp))

/-- Core C6 lemma: the rendered target always ends (as a string) with the
record's original filename, the last `/`-segment of `rel_path`. -/
theorem render_target_endsWith (rule : OrganizationRule) (fi : FileInfo) :
    lastSegR fi.rel_path <:+ rule.render_target fi := by
  rw [OrganizationRule.render_target]
  by_cases h0 : fi.rel_path = []
  · rw [if_pos h0, h0]
    simp [lastSegR]
  · rw [if_neg h0]
    set original_name := (splitSlash fi.rel_path).getLastD [] with hon
    have honl : original_name = lastSegR fi.rel_path := splitSlash_getLastD_eq_lastSegR _
    by_cases h1 : original_name = []
    · rw [if_pos h1]
      rw [← honl, h1]
      exact List.nil_suffix
    · rw [if_neg h1]
      rw [← honl]
      have hns : '/' ∉ original_name := by
        rw [honl]
        exact lastSegR_no_slash _
      exact dedup_join_preserves_suffix _ _ hns (append_step_suffix _ _)

/-! ### Generator lemmas -/

theorem findSlotAux_spec (seen : List Str) (base : Str) :
    ∀ (fuel k : Nat) (cand : Str) (c : Nat),
      findSlotAux seen base fuel k = some (cand, c) →
      cand = mkCandidate base c ∧ k ≤ c ∧ c ≤ 100000 ∧
      seen.contains (mkCandidate base c) = false ∧
      ∀ j, k ≤ j → j < c → seen.contains (mkCandidate base j) = true := by
  intro fuel
  induction fuel with
  | zero =>
    intro k cand c h
    exact absurd h (by simp [findSlotAux])
  | succ fuel ih =>
    intro k cand c h
    rw [findSlotAux] at h
    split at h
    · exact absurd h (by simp)
    · rename_i hx
      dsimp only at h
      split at h
      · rename_i hcont
        obtain ⟨h1, h2, h3, h4, h5⟩ := ih (k + 1) cand c h
        refine ⟨h1, by omega, h3, h4, ?_⟩
        intro j hj1 hj2
        rcases Nat.eq_or_lt_of_le hj1 with rfl | hlt
        · exact hcont
        · exact h5 j hlt hj2
      · rename_i hcont
        simp only [Option.some.injEq, Prod.mk.injEq] at h
        obtain ⟨rfl, rfl⟩ := h
        refine ⟨rfl, le_refl _, by omega, by simpa using hcont,
          fun j hj1 hj2 => by omega⟩

theorem findSlot_spec (seen : List Str) (base : Str) :
    ∀ (k : Nat) (cand : Str) (c : Nat), findSlot seen base k = some (cand, c) →
      cand = mkCandidate base c ∧ k ≤ c ∧ c ≤ 100000 ∧
      seen.contains (mkCandidate base c) = false ∧
      ∀ j, k ≤ j → j < c → seen.contains (mkCandidate base j) = true := by
  intro k cand c h
  exact findSlotAux_spec seen base _ k cand c h

theorem mem_joinSlash_of_mem (l : List Str) (x : Str) (c : Char)
    (hx : x ∈ l) (hc : c ∈ x) : c ∈ joinSlash l := by
  induction l with
  | nil => simp at hx
  | cons a as ih =>
    cases as with
    | nil =>
      simp only [List.mem_singleton] at hx
      subst hx
      simpa [joinSlash] using hc
    | cons b bs =>
      show c ∈ a ++ '/' :: joinSlash (b :: bs)
      rcases List.mem_cons.mp hx with rfl | hx2
      · exact List.mem_append_left _ hc
      · exact List.mem_append_right _ (List.mem_cons_of_mem _ (ih hx2))

theorem mem_splitSlash_chars (s seg : Str) (hseg : seg ∈ splitSlash s) :
    ∀ c ∈ seg, c ∈ s := by
  intro c hc
  rw [← joinSlash_splitSlash s]
  exact mem_joinSlash_of_mem _ _ _ hseg hc

theorem pyName_chars (s : Str) : ∀ c ∈ pyName s, c ∈ s := by
  intro c hc
  rcases pyName_cases s with h | h
  · rw [h] at hc
    simp at hc
  · exact mem_splitSlash_chars s _ h c hc

theorem lastSegR_norm_of_decomp (pre o : Str)
    (hend : pre = [] ∨ ∃ p0, pre = p0 ++ ['/']) :
    lastSegR (pyNormSlash (pre ++ o)) = lastSegR (pyNormSlash o) := by
  rcases hend with rfl | ⟨p0, rfl⟩
  · rfl
  · rw [pyNormSlash_append, pyNormSlash_append]
    have h1 : pyNormSlash ['/'] = ['/'] := rfl
    rw [h1, List.append_assoc]
    show lastSegR (pyNormSlash p0 ++ '/' :: pyNormSlash o) = _
    rw [lastSegR_append_slash_cons]

theorem lastSegR_pyNormSlash (s : Str) :
    lastSegR (pyNormSlash s) = lastSegR (pyNormSlash (lastSegR s)) := by
  obtain ⟨pre, hpre, hend⟩ := joinSlash_decomp (splitSlash s) (splitSlash_ne_nil s)
  rw [splitSlash_getLastD_eq_lastSegR] at hpre
  have hs : s = pre ++ lastSegR s := by rw [← hpre, joinSlash_splitSlash]
  conv_lhs => rw [hs]
  exact lastSegR_norm_of_decomp pre (lastSegR s) hend

theorem pySplitExt_length (nm : Str) :
    (pySplitExt nm).1.length + (pySplitExt nm).2.length = nm.length := by
  have := congrArg List.length (pySplitExt_append nm)
  simpa using this

/-- The collision candidate is never equal to the record's own normalized
source path: the source path's last segment is a suffix of the base
destination's last segment (because the renderer appends the original
filename), while the candidate's last segment is strictly longer than the
base's. -/
theorem mkCandidate_ne (base old o2 : Str) (c : Nat)
    (hb : '\\' ∉ base) (hsuffix : o2 <:+ base) (hlast : lastSegR old = lastSegR o2) :
    mkCandidate base c ≠ old := by
  intro heq
  have hmk : mkCandidate base c =
      pyNormSlash (if (if pyParentStr base = ['.'] then [] else pyParentStr base) ≠ [] then
        (if pyParentStr base = ['.'] then [] else pyParentStr base) ++
          '/' :: ((pySplitExt (pyName base)).1 ++ '_' :: decimalDigits c ++
            (pySplitExt (pyName base)).2)
      else ((pySplitExt (pyName base)).1 ++ '_' :: decimalDigits c ++
            (pySplitExt (pyName base)).2)) := rfl
  have hnm_noslash : '/' ∉ pyName base := pyName_no_slash base
  have hnm_nobs : '\\' ∉ pyName base := fun h => hb (pyName_chars base _ h)
  set nm := pyName base with hnm
  set se := pySplitExt nm with hse
  set core : Str := se.1 ++ '_' :: decimalDigits c ++ se.2 with hcore
  have hcore_noslash : '/' ∉ core := by
    intro h
    rw [hcore] at h
    rcases List.mem_append.mp h with h | h
    · rcases List.mem_append.mp h with h | h
      · rw [hse] at h
        exact hnm_noslash (pySplitExt_fst_subset nm _ h)
      · rcases List.mem_cons.mp h with h | h
        · exact absurd h (by decide)
        · exact decimalDigits_no_slash c h
    · rw [hse] at h
      exact hnm_noslash (pySplitExt_snd_subset nm _ h)
  have hcore_nobs : '\\' ∉ core := by
    intro h
    rw [hcore] at h
    rcases List.mem_append.mp h with h | h
    · rcases List.mem_append.mp h with h | h
      · rw [hse] at h
        exact hnm_nobs (pySplitExt_fst_subset nm _ h)
      · rcases List.mem_cons.mp h with h | h
        · exact absurd h (by decide)
        · exact decimalDigits_no_backslash c h
    · rw [hse] at h
      exact hnm_nobs (pySplitExt_snd_subset nm _ h)
  have hslashcore : pyNormSlash ('/' :: core) = '/' :: core := by
    apply pyNormSlash_of_no_backslash
    intro h
    rcases List.mem_cons.mp h with h | h
    · exact absurd h (by decide)
    · exact hcore_nobs h
  have hcand : lastSegR (mkCandidate base c) = core := by
    rw [hmk]
    by_cases hp : (if pyParentStr base = ['.'] then [] else pyParentStr base) = []
    · rw [if_neg (fun hcon => hcon hp)]
      rw [pyNormSlash_of_no_backslash _ hcore_nobs, lastSegR_of_no_slash _ hcore_noslash]
    · rw [if_pos hp]
      rw [pyNormSlash_append, hslashcore, lastSegR_append_slash_cons,
        lastSegR_of_no_slash _ hcore_noslash]
  have hl : se.1.length + se.2.length = nm.length := by
    rw [hse]
    exact pySplitExt_length nm
  have hlen_core : core.length = nm.length + (decimalDigits c).length + 1 := by
    rw [hcore]
    simp only [List.length_append, List.length_cons]
    omega
  have hdig : 1 ≤ (decimalDigits c).length :=
    List.length_pos.mpr (decimalDigits_ne_nil c)
  have htcore : lastSegR old = core := by
    rw [← heq]
    exact hcand
  have hmono := lastSegR_suffix_mono o2 base hsuffix
  have htL : core <:+ lastSegR base := by
    have ho2 : lastSegR o2 = core := by rw [← hlast, htcore]
    rwa [ho2] at hmono
  have hlenL : core.length ≤ (lastSegR base).length := htL.length_le
  by_cases hL0 : lastSegR base = []
  · rw [hL0] at hlenL
    simp only [List.length_nil] at hlenL
    omega
  by_cases hL1 : lastSegR base = ['.']
  · rw [hL1] at hlenL
    simp only [List.length_cons, List.length_nil] at hlenL
    omega
  have hnmL : nm = lastSegR base := by
    rw [hnm, pyName, pySegs]
    rw [getLastD_filter_of_last _ _ _ (splitSlash_ne_nil base) ?_]
    · exact splitSlash_getLastD_eq_lastSegR base
    · rw [splitSlash_getLastD_eq_lastSegR base]
      simp only [decide_eq_true_eq]
      exact ⟨hL0, hL1⟩
  rw [← hnmL] at hlenL
  omega

theorem applyRulesToFile_some (seen : List Str) (ctrs : List (Str × Nat)) (old_rel : Str)
    (fi : FileInfo) :
    ∀ (rules : List OrganizationRule) (mv : MoveOut) (upd : Option (Str × Nat)),
      applyRulesToFile seen ctrs old_rel fi rules = some (mv, upd) →
      mv.old_rel = old_rel ∧ seen.contains mv.new_rel = false ∧
      ((upd = none ∧ old_rel ≠ mv.new_rel ∧
          ∃ rule ∈ rules, mv.new_rel = pyNormSlash (rule.render_target fi)) ∨
        (∃ rule ∈ rules, ∃ base c, base = pyNormSlash (rule.render_target fi) ∧
          old_rel ≠ base ∧ seen.contains base = true ∧
          findSlot seen base ((ctrs.lookup base).getD 1) = some (mv.new_rel, c) ∧
          upd = some (base, c + 1))) := by
  intro rules
  induction rules with
  | nil =>
    intro mv upd h
    simp [applyRulesToFile] at h
  | cons rule rest ih =>
    intro mv upd h
    simp only [applyRulesToFile] at h
    by_cases hm : rule.matchC.matches fi = true
    · rw [if_pos hm] at h
      by_cases hne : old_rel = pyNormSlash (rule.render_target fi)
      · rw [if_pos hne] at h
        obtain ⟨h1, h2, h3⟩ := ih mv upd h
        refine ⟨h1, h2, ?_⟩
        rcases h3 with ⟨hu, hne2, r, hr, hrend⟩ | ⟨r, hr, rest'⟩
        · exact Or.inl ⟨hu, hne2, r, List.mem_cons_of_mem _ hr, hrend⟩
        · exact Or.inr ⟨r, List.mem_cons_of_mem _ hr, rest'⟩
      · rw [if_neg hne] at h
        by_cases hc : seen.contains (pyNormSlash (rule.render_target fi)) = true
        · rw [if_pos hc] at h
          cases hf : findSlot seen (pyNormSlash (rule.render_target fi))
              ((ctrs.lookup (pyNormSlash (rule.render_target fi))).getD 1) with
          | none => rw [hf] at h; exact absurd h (by simp)
          | some pr =>
            rw [hf] at h
            obtain ⟨cand, c⟩ := pr
            simp only [Option.some.injEq, Prod.mk.injEq] at h
            obtain ⟨rfl, rfl⟩ := h
            obtain ⟨hcand, _, _, hnotin, _⟩ := findSlot_spec seen _ _ _ _ hf
            refine ⟨rfl, ?_, Or.inr ⟨rule, List.mem_cons_self _ _, _, c, rfl, hne, hc, hf, rfl⟩⟩
            show seen.contains cand = false
            rw [hcand]
            exact hnotin
        · rw [if_neg hc] at h
          simp only [Option.some.injEq, Prod.mk.injEq] at h
          obtain ⟨rfl, rfl⟩ := h
          refine ⟨rfl, by simpa using hc, Or.inl ⟨rfl, hne, rule, List.mem_cons_self _ _, rfl⟩⟩
    · rw [if_neg hm] at h
      obtain ⟨h1, h2, h3⟩ := ih mv upd h
      refine ⟨h1, h2, ?_⟩
      rcases h3 with ⟨hu, hne2, r, hr, hrend⟩ | ⟨r, hr, rest'⟩
      · exact Or.inl ⟨hu, hne2, r, List.mem_cons_of_mem _ hr, hrend⟩
      · exact Or.inr ⟨r, List.mem_cons_of_mem _ hr, rest'⟩

theorem contains_cons_false_tail (l : List Str) (a x : Str)
    (h : (a :: l).contains x = false) : l.contains x = false := by
  by_contra hc
  rw [Bool.not_eq_false, List.elem_iff] at hc
  rw [← Bool.not_eq_true, List.elem_iff] at h
  exact h (List.mem_cons_of_mem a hc)

theorem contains_cons_false_ne (l : List Str) (a x : Str)
    (h : (a :: l).contains x = false) : x ≠ a := by
  intro rfl'
  rw [← Bool.not_eq_true, List.elem_iff] at h
  exact h (rfl' ▸ List.mem_cons_self a l)

theorem genAux_invariant (rules : List OrganizationRule) :
    ∀ (files : List FileInfo) (seen : List Str) (ctrs : List (Str × Nat)),
      ((genAux rules seen ctrs files).Pairwise (fun a b => a.new_rel ≠ b.new_rel)) ∧
      (∀ m ∈ genAux rules seen ctrs files, seen.contains m.new_rel = false) ∧
      (∀ m ∈ genAux rules seen ctrs files, m.old_rel ≠ m.new_rel) := by
  intro files
  induction files with
  | nil => intro seen ctrs; simp [genAux]
  | cons fi fs ih =>
    intro seen ctrs
    simp only [genAux]
    by_cases h0 : fi.rel_path = []
    · rw [if_pos h0]
      exact ih seen ctrs
    · rw [if_neg h0]
      cases ha : applyRulesToFile seen ctrs (pyNormSlash fi.rel_path) fi rules with
      | none => exact ih seen ctrs
      | some pr =>
        obtain ⟨mv, upd⟩ := pr
        dsimp only
        obtain ⟨hold, hfresh, hstruct⟩ := applyRulesToFile_some _ _ _ _ _ _ _ ha
        set ctrs' := (match upd with
          | some kv => kv :: ctrs
          | none => ctrs) with hctrs
        obtain ⟨ihp, ihf, ihne⟩ := ih (mv.new_rel :: seen) ctrs'
        refine ⟨?_, ?_, ?_⟩
        · rw [List.pairwise_cons]
          refine ⟨?_, ihp⟩
          intro m hm
          exact fun hcon => (contains_cons_false_ne _ _ _ (ihf m hm)) hcon.symm
        · intro m hm
          rcases List.mem_cons.mp hm with rfl | hm2
          · exact hfresh
          · exact contains_cons_false_tail _ _ _ (ihf m hm2)
        · intro m hm
          rcases List.mem_cons.mp hm with rfl | hm2
          · rcases hstruct with ⟨_, hne, _⟩ | ⟨rule, _, base, c, hbase, hneb, hcont, hfind, _⟩
            · rw [hold]
              exact hne
            · obtain ⟨hcand, _, _, _, _⟩ := findSlot_spec seen _ _ _ _ hfind
              rw [hold]
              intro hcon
              refine mkCandidate_ne base (pyNormSlash fi.rel_path)
                (pyNormSlash (lastSegR fi.rel_path)) c ?_ ?_ ?_ ?_
              · rw [hbase]
                exact pyNormSlash_no_backslash _
              · rw [hbase]
                exact pyNormSlash_suffix_mono _ _ (render_target_endsWith rule fi)
              · exact lastSegR_pyNormSlash fi.rel_path
              · rw [← hcand]
                exact hcon.symm
          · exact ihne m hm2

theorem lookup_mem (l : List (Str × Nat)) (a : Str) (v : Nat) (h : l.lookup a = some v) :
    (a, v) ∈ l := by
  induction l with
  | nil => simp [List.lookup] at h
  | cons p rest ih =>
    rw [List.lookup] at h
    cases he : (a == p.1) with
    | true =>
      rw [he] at h
      simp only [Option.some.injEq] at h
      have hap : a = p.1 := beq_iff_eq.mp he
      have : (a, v) = p := by
        rw [hap, ← h]
      rw [this]
      exact List.mem_cons_self p rest
    | false =>
      rw [he] at h
      exact List.mem_cons_of_mem _ (ih h)

/-- Cross-record invariant of the generator state: every cached counter
value only skips suffixes that are already assigned destinations. -/
def CounterInv (seen : List Str) (counters : List (Str × Nat)) : Prop :=
  ∀ p ∈ counters, 1 ≤ p.2 ∧
    ∀ k, k < p.2 → 1 ≤ k → seen.contains (mkCandidate p.1 k) = true

theorem contains_cons_self (l : List Str) (a : Str) : (a :: l).contains a = true :=
  List.elem_iff.mpr (List.mem_cons_self a l)

theorem contains_cons_of_contains (l : List Str) (a x : Str) (h : l.contains x = true) :
    (a :: l).contains x = true :=
  List.elem_iff.mpr (List.mem_cons_of_mem a (List.elem_iff.mp h))

/-- Smallest-unused-suffix property of the collision search, starting from
the cached counter. -/
theorem findSlot_least (seen : List Str) (ctrs : List (Str × Nat)) (base cand : Str) (c : Nat)
    (hinv : CounterInv seen ctrs)
    (h : findSlot seen base ((ctrs.lookup base).getD 1) = some (cand, c)) :
    cand = mkCandidate base c ∧ 1 ≤ c ∧
    seen.contains (mkCandidate base c) = false ∧
    ∀ j, 1 ≤ j → j < c → seen.contains (mkCandidate base j) = true := by
  obtain ⟨hcand, hstart, _, hfree, hscan⟩ := findSlot_spec seen base _ _ _ h
  cases hl : ctrs.lookup base with
  | none =>
    rw [hl] at hstart hscan
    simp only [Option.getD] at hstart hscan
    exact ⟨hcand, hstart, hfree, fun j hj1 hj2 => hscan j hj1 hj2⟩
  | some v =>
    rw [hl] at hstart hscan
    simp only [Option.getD] at hstart hscan
    obtain ⟨hv1, hvs⟩ := hinv (base, v) (lookup_mem _ _ _ hl)
    refine ⟨hcand, by omega, hfree, ?_⟩
    intro j hj1 hj2
    by_cases hjv : j < v
    · exact hvs j hjv hj1
    · exact hscan j (by omega) hj2

/-- `CounterInv` is preserved by processing one record. -/
theorem applyRulesToFile_preserves_inv (seen : List Str) (ctrs : List (Str × Nat))
    (old_rel : Str) (fi : FileInfo) (rules : List OrganizationRule) (mv : MoveOut)
    (upd : Option (Str × Nat))
    (h : applyRulesToFile seen ctrs old_rel fi rules = some (mv, upd))
    (hinv : CounterInv seen ctrs) :
    CounterInv (mv.new_rel :: seen)
      (match upd with
       | some kv => kv :: ctrs
       | none => ctrs) := by
  obtain ⟨_, _, hstruct⟩ := applyRulesToFile_some _ _ _ _ _ _ _ h
  rcases hstruct with ⟨rfl, _, _⟩ | ⟨rule, _, base, c, hbase, hne, hcont, hfind, rfl⟩
  · intro p hp
    obtain ⟨h1, h2⟩ := hinv p hp
    exact ⟨h1, fun k hk hk1 => contains_cons_of_contains _ _ _ (h2 k hk hk1)⟩
  · intro p hp
    rcases List.mem_cons.mp hp with rfl | hp2
    · refine ⟨by omega, ?_⟩
      intro k hk hk1
      obtain ⟨hcand, _, _, hscan⟩ := findSlot_least seen ctrs base mv.new_rel c hinv hfind
      by_cases hkc : k < c
      · exact contains_cons_of_contains _ _ _ (hscan k hk1 hkc)
      · have : k = c := by omega
        subst this
        rw [← hcand]
        exact contains_cons_self _ _
    · obtain ⟨h1, h2⟩ := hinv p hp2
      exact ⟨h1, fun k hk hk1 => contains_cons_of_contains _ _ _ (h2 k hk hk1)⟩

/-! ### Validator lemmas -/

/-- Normalization applied by `validate_plan` to each move field. -/
@[reducible] def vNorm (s : Str) : Str := stripSlashes (pyNormSlash s)

/-- The state-independent per-move checks of `validate_plan` on a
normalized (old, new) pair: not a no-op, not a pure rename, no bundle
ancestor on either side, and a source that exists as a file or as an
atomic-bundle directory. -/
def MovePasses (fs : FsView) (rn : Str) (o n : Str) : Prop :=
  ¬ o = n ∧
  ¬(joinSlash (splitSlash o).dropLast = joinSlash (splitSlash n).dropLast ∧
    (splitSlash o).getLastD [] ≠ (splitSlash n).getLastD []) ∧
  ¬ path_contains_bundle o = true ∧
  ¬ path_contains_bundle n = true ∧
  fs.existsAt o = true ∧
  ¬(¬ fs.isFile o = true ∧
    ¬(fs.isDir o && (is_known_bundle_folder (srcNameOf rn o) ||
      is_macos_bundle (srcNameOf rn o))) = true)

instance (fs : FsView) (rn o n : Str) : Decidable (MovePasses fs rn o n) := by
  unfold MovePasses
  infer_instance

theorem vLoop_valid_shape (fs : FsView) (rn : Str) :
    ∀ (moves : List MoveIn) (dests seen : List (Str × Str)),
      ∀ m ∈ (vLoop fs rn moves dests seen).2.2,
        (∃ m0 ∈ moves, m.old_rel = vNorm m0.old_rel ∧ m.new_rel = vNorm m0.new_rel) ∧
        MovePasses fs rn m.old_rel m.new_rel := by
  intro moves
  induction moves with
  | nil => intro dests seen m hm; simp [vLoop] at hm
  | cons mv rest ih =>
    intro dests seen m hm
    rw [vLoop] at hm
    dsimp only at hm
    split at hm
    · obtain ⟨⟨m0, hm0, he⟩, hp⟩ := ih _ _ m hm
      exact ⟨⟨m0, List.mem_cons_of_mem _ hm0, he⟩, hp⟩
    · split at hm
      · obtain ⟨⟨m0, hm0, he⟩, hp⟩ := ih _ _ m hm
        exact ⟨⟨m0, List.mem_cons_of_mem _ hm0, he⟩, hp⟩
      · split at hm
        · obtain ⟨⟨m0, hm0, he⟩, hp⟩ := ih _ _ m hm
          exact ⟨⟨m0, List.mem_cons_of_mem _ hm0, he⟩, hp⟩
        · split at hm
          · obtain ⟨⟨m0, hm0, he⟩, hp⟩ := ih _ _ m hm
            exact ⟨⟨m0, List.mem_cons_of_mem _ hm0, he⟩, hp⟩
          · split at hm
            · obtain ⟨⟨m0, hm0, he⟩, hp⟩ := ih _ _ m hm
              exact ⟨⟨m0, List.mem_cons_of_mem _ hm0, he⟩, hp⟩
            · split at hm
              · obtain ⟨⟨m0, hm0, he⟩, hp⟩ := ih _ _ m hm
                exact ⟨⟨m0, List.mem_cons_of_mem _ hm0, he⟩, hp⟩
              · split at hm
                · obtain ⟨⟨m0, hm0, he⟩, hp⟩ := ih _ _ m hm
                  exact ⟨⟨m0, List.mem_cons_of_mem _ hm0, he⟩, hp⟩
                · split at hm
                  · split at hm
                    · obtain ⟨⟨m0, hm0, he⟩, hp⟩ := ih _ _ m hm
                      exact ⟨⟨m0, List.mem_cons_of_mem _ hm0, he⟩, hp⟩
                    · obtain ⟨⟨m0, hm0, he⟩, hp⟩ := ih _ _ m hm
                      exact ⟨⟨m0, List.mem_cons_of_mem _ hm0, he⟩, hp⟩
                  · rename_i hno hdup hren hpcbo hpcbn hexd hnf xx hlk
                    rcases List.mem_cons.mp hm with rfl | hm2
                    · exact ⟨⟨mv, List.mem_cons_self _ _, rfl, rfl⟩,
                        hno, hren, hpcbo, hpcbn, not_not.mp hexd, hnf⟩
                    · obtain ⟨⟨m0, hm0, he⟩, hp⟩ := ih _ _ m hm2
                      exact ⟨⟨m0, List.mem_cons_of_mem _ hm0, he⟩, hp⟩

@[reducible] def nOld (m : MoveIn) : Str := vNorm m.old_rel
@[reducible] def nNew (m : MoveIn) : Str := vNorm m.new_rel

/-- Invariant: every pair recorded in `seen_moves` that passes all
state-independent checks has its destination claimed in `destinations`
by its own source. -/
def P1 (fs : FsView) (rn : Str) (dests seen : List (Str × Str)) : Prop :=
  ∀ p q, (p, q) ∈ seen → MovePasses fs rn p q → dests.lookup q = some p

theorem lookup_cons_ne (l : List (Str × Str)) (k q : Str) (v : Str) (h : q ≠ k) :
    ((k, v) :: l).lookup q = l.lookup q := by
  rw [List.lookup]
  have : (q == k) = false := beq_eq_false_iff_ne.mpr h
  rw [this]

theorem lookup_cons_self (l : List (Str × Str)) (k v : Str) :
    ((k, v) :: l).lookup k = some v := by
  rw [List.lookup]
  rw [beq_self_eq_true]

theorem vLoop_collision_of_lookup (fs : FsView) (rn : Str) :
    ∀ (moves : List MoveIn) (dests seen : List (Str × Str)),
      P1 fs rn dests seen →
      ∀ b ∈ moves, ∀ o,
        MovePasses fs rn (stripSlashes (pyNormSlash b.old_rel))
          (stripSlashes (pyNormSlash b.new_rel)) →
        dests.lookup (stripSlashes (pyNormSlash b.new_rel)) = some o →
        o ≠ stripSlashes (pyNormSlash b.old_rel) →
        (vLoop fs rn moves dests seen).2.1 ≠ [] := by
  intro moves
  induction moves with
  | nil => intro dests seen _ b hb; simp at hb
  | cons h rest ih =>
    intro dests seen hP1 b hb o hbpass hblk hbne
    rw [vLoop]
    dsimp only
    set p := stripSlashes (pyNormSlash h.old_rel) with hp
    set q := stripSlashes (pyNormSlash h.new_rel) with hq
    set pb := stripSlashes (pyNormSlash b.old_rel) with hpb
    set qb := stripSlashes (pyNormSlash b.new_rel) with hqb
    by_cases hbh : p = pb ∧ q = qb
    · obtain ⟨hbh1, hbh2⟩ := hbh
      rw [← hbh1] at hbne hbpass
      rw [← hbh2] at hbpass hblk
      rw [if_neg hbpass.1]
      by_cases hdup : seen.contains (p, q) = true
      · exfalso
        have hmem : (p, q) ∈ seen := List.elem_iff.mp hdup
        have := hP1 _ _ hmem hbpass
        rw [hblk] at this
        exact hbne (by injection this)
      · rw [if_neg hdup]
        rw [if_neg hbpass.2.1, if_neg hbpass.2.2.1, if_neg hbpass.2.2.2.1,
          if_neg (not_not_intro hbpass.2.2.2.2.1),
          if_neg hbpass.2.2.2.2.2]
        rw [hblk]
        dsimp only
        rw [if_pos hbne]
        dsimp only
        intro hcon
        exact absurd hcon (by simp)
    · have hbrest : b ∈ rest := by
        rcases List.mem_cons.mp hb with rfl | hr
        · exact absurd ⟨rfl, rfl⟩ hbh
        · exact hr
      by_cases hnoop : p = q
      · rw [if_pos hnoop]
        exact ih dests seen hP1 b hbrest o hbpass hblk hbne
      · rw [if_neg hnoop]
        by_cases hdup : seen.contains (p, q) = true
        · rw [if_pos hdup]
          exact ih dests seen hP1 b hbrest o hbpass hblk hbne
        · rw [if_neg hdup]
          have hP1ext : ¬ MovePasses fs rn p q → P1 fs rn dests ((p, q) :: seen) := by
            intro hfail pp qq hmem hpass
            rcases List.mem_cons.mp hmem with heq | hmem2
            · exfalso
              have h1 : pp = p := by injection heq
              have h2 : qq = q := by
                have := congrArg Prod.snd heq
                simpa using this
              rw [h1, h2] at hpass
              exact hfail hpass
            · exact hP1 pp qq hmem2 hpass
          by_cases hren : joinSlash (splitSlash p).dropLast = joinSlash (splitSlash q).dropLast ∧
              (splitSlash p).getLastD [] ≠ (splitSlash q).getLastD []
          · rw [if_pos hren]
            dsimp only
            intro hcon
            refine ih dests _ (hP1ext (fun hpass => hpass.2.1 hren)) b hbrest o hbpass hblk hbne ?_
            exact hcon
          · rw [if_neg hren]
            by_cases hpcbo : path_contains_bundle p = true
            · rw [if_pos hpcbo]
              dsimp only
              intro hcon
              exact ih dests _ (hP1ext (fun hpass => hpass.2.2.1 hpcbo)) b hbrest o hbpass hblk hbne hcon
            · rw [if_neg hpcbo]
              by_cases hpcbn : path_contains_bundle q = true
              · rw [if_pos hpcbn]
                dsimp only
                intro hcon
                exact ih dests _ (hP1ext (fun hpass => hpass.2.2.2.1 hpcbn)) b hbrest o hbpass hblk hbne hcon
              · rw [if_neg hpcbn]
                by_cases hex : ¬ fs.existsAt p = true
                · rw [if_pos hex]
                  dsimp only
                  intro hcon
                  exact ih dests _ (hP1ext (fun hpass => hex hpass.2.2.2.2.1)) b hbrest o hbpass hblk hbne hcon
                · rw [if_neg hex]
                  by_cases hnf : ¬ fs.isFile p = true ∧
                      ¬ (fs.isDir p && (is_known_bundle_folder (srcNameOf rn p) ||
                        is_macos_bundle (srcNameOf rn p))) = true
                  · rw [if_pos hnf]
                    dsimp only
                    intro hcon
                    exact ih dests _ (hP1ext (fun hpass => hpass.2.2.2.2.2 hnf)) b hbrest o hbpass hblk hbne hcon
                  · rw [if_neg hnf]
                    have hpassh : MovePasses fs rn p q :=
                      ⟨hnoop, hren, hpcbo, hpcbn, not_not.mp hex, hnf⟩
                    cases hlk : dests.lookup q with
                    | some o2 =>
                      dsimp only
                      by_cases ho2 : o2 ≠ p
                      · rw [if_pos ho2]
                        dsimp only
                        intro hcon
                        exact absurd hcon (by simp)
                      · rw [if_neg ho2]
                        have ho2p : o2 = p := not_not.mp ho2
                        have hP1' : P1 fs rn dests ((p, q) :: seen) := by
                          intro pp qq hmem hpass
                          rcases List.mem_cons.mp hmem with heq | hmem2
                          · have h1 : pp = p := by injection heq
                            have h2 : qq = q := by
                              have := congrArg Prod.snd heq
                              simpa using this
                            rw [h1, h2, ← ho2p]
                            exact hlk
                          · exact hP1 pp qq hmem2 hpass
                        exact ih dests _ hP1' b hbrest o hbpass hblk hbne
                    | none =>
                      dsimp only
                      intro hcon
                      have hqne : qb ≠ q := by
                        intro hqq
                        rw [hqq] at hblk
                        rw [hblk] at hlk
                        exact absurd hlk (by simp)
                      have hP1' : P1 fs rn ((q, p) :: dests) ((p, q) :: seen) := by
                        intro pp qq hmem hpass
                        rcases List.mem_cons.mp hmem with heq | hmem2
                        · have h1 : pp = p := by injection heq
                          have h2 : qq = q := by
                            have := congrArg Prod.snd heq
                            simpa using this
                          rw [h1, h2]
                          exact lookup_cons_self dests q p
                        · have hlk2 := hP1 pp qq hmem2 hpass
                          by_cases hqq : qq = q
                          · rw [hqq] at hlk2
                            rw [hlk2] at hlk
                            exact absurd hlk (by simp)
                          · rw [lookup_cons_ne dests q qq p hqq]
                            exact hlk2
                      refine ih _ _ hP1' b hbrest o hbpass ?_ hbne hcon
                      rw [lookup_cons_ne dests q qb p hqne]
                      exact hblk

theorem vLoop_collision_of_pair (fs : FsView) (rn : Str) :
    ∀ (moves : List MoveIn) (dests seen : List (Str × Str)),
      P1 fs rn dests seen →
      ∀ a ∈ moves, ∀ b ∈ moves,
        MovePasses fs rn (stripSlashes (pyNormSlash a.old_rel))
          (stripSlashes (pyNormSlash a.new_rel)) →
        MovePasses fs rn (stripSlashes (pyNormSlash b.old_rel))
          (stripSlashes (pyNormSlash b.new_rel)) →
        stripSlashes (pyNormSlash a.new_rel) = stripSlashes (pyNormSlash b.new_rel) →
        stripSlashes (pyNormSlash a.old_rel) ≠ stripSlashes (pyNormSlash b.old_rel) →
        (vLoop fs rn moves dests seen).2.1 ≠ [] := by
  intro moves
  induction moves with
  | nil => intro dests seen _ a ha; simp at ha
  | cons h rest ih =>
    intro dests seen hP1 a ha b hb hapass hbpass heqn hneo
    rw [vLoop]
    dsimp only
    set p := stripSlashes (pyNormSlash h.old_rel) with hp
    set q := stripSlashes (pyNormSlash h.new_rel) with hq
    set pa := stripSlashes (pyNormSlash a.old_rel) with hpa
    set qa := stripSlashes (pyNormSlash a.new_rel) with hqa
    set pb := stripSlashes (pyNormSlash b.old_rel) with hpb
    set qb := stripSlashes (pyNormSlash b.new_rel) with hqb
    by_cases hah : p = pa ∧ q = qa
    · obtain ⟨h1, h2⟩ := hah
      rw [← h1] at hapass hneo
      rw [← h2] at hapass heqn
      have hbrest : b ∈ rest := by
        rcases List.mem_cons.mp hb with rfl | hr
        · exact absurd rfl hneo
        · exact hr
      rw [if_neg hapass.1]
      by_cases hdup : seen.contains (p, q) = true
      · rw [if_pos hdup]
        have hmem : (p, q) ∈ seen := List.elem_iff.mp hdup
        have hlk := hP1 _ _ hmem hapass
        refine vLoop_collision_of_lookup fs rn rest dests seen hP1 b hbrest p hbpass ?_ ?_
        · show List.lookup qb dests = some p
          rw [← heqn]
          exact hlk
        · exact hneo
      · rw [if_neg hdup]
        rw [if_neg hapass.2.1, if_neg hapass.2.2.1, if_neg hapass.2.2.2.1,
          if_neg (not_not_intro hapass.2.2.2.2.1), if_neg hapass.2.2.2.2.2]
        have hP1' : P1 fs rn dests ((p, q) :: seen) → True := fun _ => trivial
        cases hlk : dests.lookup q with
        | some o2 =>
          dsimp only
          by_cases ho2 : o2 ≠ p
          · rw [if_pos ho2]
            dsimp only
            intro hcon
            exact absurd hcon (by simp)
          · rw [if_neg ho2]
            have ho2p : o2 = p := not_not.mp ho2
            have hP1n : P1 fs rn dests ((p, q) :: seen) := by
              intro pp qq hmem hpass
              rcases List.mem_cons.mp hmem with heq2 | hmem2
              · have e1 : pp = p := by injection heq2
                have e2 : qq = q := by
                  have := congrArg Prod.snd heq2
                  simpa using this
                rw [e1, e2, ← ho2p]
                exact hlk
              · exact hP1 pp qq hmem2 hpass
            refine vLoop_collision_of_lookup fs rn rest dests _ hP1n b hbrest p hbpass ?_ hneo
            show List.lookup qb dests = some p
            rw [← heqn, ← ho2p]
            exact hlk
        | none =>
          dsimp only
          intro hcon
          have hP1n : P1 fs rn ((q, p) :: dests) ((p, q) :: seen) := by
            intro pp qq hmem hpass
            rcases List.mem_cons.mp hmem with heq2 | hmem2
            · have e1 : pp = p := by injection heq2
              have e2 : qq = q := by
                have := congrArg Prod.snd heq2
                simpa using this
              rw [e1, e2]
              exact lookup_cons_self dests q p
            · have hlk2 := hP1 pp qq hmem2 hpass
              by_cases hqq : qq = q
              · rw [hqq] at hlk2
                rw [hlk2] at hlk
                exact absurd hlk (by simp)
              · rw [lookup_cons_ne dests q qq p hqq]
                exact hlk2
          refine vLoop_collision_of_lookup fs rn rest _ _ hP1n b hbrest p hbpass ?_ hneo hcon
          show List.lookup qb ((q, p) :: dests) = some p
          rw [← heqn]
          exact lookup_cons_self dests q p
    · by_cases hbh : p = pb ∧ q = qb
      · obtain ⟨h1, h2⟩ := hbh
        rw [← h1] at hbpass hneo
        rw [← h2] at hbpass heqn
        have harest : a ∈ rest := by
          rcases List.mem_cons.mp ha with rfl | hr
          · exact absurd rfl hneo
          · exact hr
        rw [if_neg hbpass.1]
        by_cases hdup : seen.contains (p, q) = true
        · rw [if_pos hdup]
          have hmem : (p, q) ∈ seen := List.elem_iff.mp hdup
          have hlk := hP1 _ _ hmem hbpass
          refine vLoop_collision_of_lookup fs rn rest dests seen hP1 a harest p hapass ?_ ?_
          · show List.lookup qa dests = some p
            rw [heqn]
            exact hlk
          · exact fun hcon => hneo hcon.symm
        · rw [if_neg hdup]
          rw [if_neg hbpass.2.1, if_neg hbpass.2.2.1, if_neg hbpass.2.2.2.1,
            if_neg (not_not_intro hbpass.2.2.2.2.1), if_neg hbpass.2.2.2.2.2]
          cases hlk : dests.lookup q with
          | some o2 =>
            dsimp only
            by_cases ho2 : o2 ≠ p
            · rw [if_pos ho2]
              dsimp only
              intro hcon
              exact absurd hcon (by simp)
            · rw [if_neg ho2]
              have ho2p : o2 = p := not_not.mp ho2
              have hP1n : P1 fs rn dests ((p, q) :: seen) := by
                intro pp qq hmem hpass
                rcases List.mem_cons.mp hmem with heq2 | hmem2
                · have e1 : pp = p := by injection heq2
                  have e2 : qq = q := by
                    have := congrArg Prod.snd heq2
                    simpa using this
                  rw [e1, e2, ← ho2p]
                  exact hlk
                · exact hP1 pp qq hmem2 hpass
              refine vLoop_collision_of_lookup fs rn rest dests _ hP1n a harest p hapass ?_ ?_
              · show List.lookup qa dests = some p
                rw [heqn, ← ho2p]
                exact hlk
              · exact fun hcon => hneo hcon.symm
          | none =>
            dsimp only
            intro hcon
            have hP1n : P1 fs rn ((q, p) :: dests) ((p, q) :: seen) := by
              intro pp qq hmem hpass
              rcases List.mem_cons.mp hmem with heq2 | hmem2
              · have e1 : pp = p := by injection heq2
                have e2 : qq = q := by
                  have := congrArg Prod.snd heq2
                  simpa using this
                rw [e1, e2]
                exact lookup_cons_self dests q p
              · have hlk2 := hP1 pp qq hmem2 hpass
                by_cases hqq : qq = q
                · rw [hqq] at hlk2
                  rw [hlk2] at hlk
                  exact absurd hlk (by simp)
                · rw [lookup_cons_ne dests q qq p hqq]
                  exact hlk2
            refine vLoop_collision_of_lookup fs rn rest _ _ hP1n a harest p hapass ?_
              (fun hcon => hneo hcon.symm) hcon
            show List.lookup qa ((q, p) :: dests) = some p
            rw [heqn]
            exact lookup_cons_self dests q p
      · -- neither a nor b matches the head's pair
        have harest : a ∈ rest := by
          rcases List.mem_cons.mp ha with rfl | hr
          · exact absurd ⟨rfl, rfl⟩ hah
          · exact hr
        have hbrest : b ∈ rest := by
          rcases List.mem_cons.mp hb with rfl | hr
          · exact absurd ⟨rfl, rfl⟩ hbh
          · exact hr
        have hrec : ∀ dests2 seen2, P1 fs rn dests2 seen2 →
            (vLoop fs rn rest dests2 seen2).2.1 ≠ [] :=
          fun dests2 seen2 hP => ih dests2 seen2 hP a harest b hbrest hapass hbpass heqn hneo
        have hP1ext : ¬ MovePasses fs rn p q → P1 fs rn dests ((p, q) :: seen) := by
          intro hfail pp qq hmem hpass
          rcases List.mem_cons.mp hmem with heq2 | hmem2
          · exfalso
            have e1 : pp = p := by injection heq2
            have e2 : qq = q := by
              have := congrArg Prod.snd heq2
              simpa using this
            rw [e1, e2] at hpass
            exact hfail hpass
          · exact hP1 pp qq hmem2 hpass
        by_cases hnoop : p = q
        · rw [if_pos hnoop]
          exact hrec dests seen hP1
        · rw [if_neg hnoop]
          by_cases hdup : seen.contains (p, q) = true
          · rw [if_pos hdup]
            exact hrec dests seen hP1
          · rw [if_neg hdup]
            by_cases hren : joinSlash (splitSlash p).dropLast = joinSlash (splitSlash q).dropLast ∧
                (splitSlash p).getLastD [] ≠ (splitSlash q).getLastD []
            · rw [if_pos hren]
              dsimp only
              intro hcon
              exact hrec dests _ (hP1ext (fun hpass => hpass.2.1 hren)) hcon
            · rw [if_neg hren]
              by_cases hpcbo : path_contains_bundle p = true
              · rw [if_pos hpcbo]
                dsimp only
                intro hcon
                exact hrec dests _ (hP1ext (fun hpass => hpass.2.2.1 hpcbo)) hcon
              · rw [if_neg hpcbo]
                by_cases hpcbn : path_contains_bundle q = true
                · rw [if_pos hpcbn]
                  dsimp only
                  intro hcon
                  exact hrec dests _ (hP1ext (fun hpass => hpass.2.2.2.1 hpcbn)) hcon
                · rw [if_neg hpcbn]
                  by_cases hex : ¬ fs.existsAt p = true
                  · rw [if_pos hex]
                    dsimp only
                    intro hcon
                    exact hrec dests _ (hP1ext (fun hpass => hex hpass.2.2.2.2.1)) hcon
                  · rw [if_neg hex]
                    by_cases hnf : ¬ fs.isFile p = true ∧
                        ¬ (fs.isDir p && (is_known_bundle_folder (srcNameOf rn p) ||
                          is_macos_bundle (srcNameOf rn p))) = true
                    · rw [if_pos hnf]
                      dsimp only
                      intro hcon
                      exact hrec dests _ (hP1ext (fun hpass => hpass.2.2.2.2.2 hnf)) hcon
                    · rw [if_neg hnf]
                      have hpassh : MovePasses fs rn p q :=
                        ⟨hnoop, hren, hpcbo, hpcbn, not_not.mp hex, hnf⟩
                      cases hlk : dests.lookup q with
                      | some o2 =>
                        dsimp only
                        by_cases ho2 : o2 ≠ p
                        · rw [if_pos ho2]
                          dsimp only
                          intro hcon
                          exact absurd hcon (by simp)
                        · rw [if_neg ho2]
                          have ho2p : o2 = p := not_not.mp ho2
                          have hP1n : P1 fs rn dests ((p, q) :: seen) := by
                            intro pp qq hmem hpass
                            rcases List.mem_cons.mp hmem with heq2 | hmem2
                            · have e1 : pp = p := by injection heq2
                              have e2 : qq = q := by
                                have := congrArg Prod.snd heq2
                                simpa using this
                              rw [e1, e2, ← ho2p]
                              exact hlk
                            · exact hP1 pp qq hmem2 hpass
                          exact hrec dests _ hP1n
                      | none =>
                        dsimp only
                        intro hcon
                        have hP1n : P1 fs rn ((q, p) :: dests) ((p, q) :: seen) := by
                          intro pp qq hmem hpass
                          rcases List.mem_cons.mp hmem with heq2 | hmem2
                          · have e1 : pp = p := by injection heq2
                            have e2 : qq = q := by
                              have := congrArg Prod.snd heq2
                              simpa using this
                            rw [e1, e2]
                            exact lookup_cons_self dests q p
                          · have hlk2 := hP1 pp qq hmem2 hpass
                            by_cases hqq : qq = q
                            · rw [hqq] at hlk2
                              rw [hlk2] at hlk
                              exact absurd hlk (by simp)
                            · rw [lookup_cons_ne dests q qq p hqq]
                              exact hlk2
                        exact hrec _ _ hP1n hcon

/-- Every destination entry is justified by a passing move of the plan `M`. -/
def DestsFromM (fs : FsView) (rn : Str) (dests : List (Str × Str)) (M : List MoveIn) : Prop :=
  ∀ qo ∈ dests, ∃ m0 ∈ M, stripSlashes (pyNormSlash m0.old_rel) = qo.2 ∧
    stripSlashes (pyNormSlash m0.new_rel) = qo.1 ∧
    MovePasses fs rn qo.2 qo.1

theorem lookup_mem_str (l : List (Str × Str)) (a : Str) (v : Str) (h : l.lookup a = some v) :
    (a, v) ∈ l := by
  induction l with
  | nil => simp [List.lookup] at h
  | cons p rest ih =>
    rw [List.lookup] at h
    cases he : (a == p.1) with
    | true =>
      rw [he] at h
      simp only [Option.some.injEq] at h
      have hap : a = p.1 := beq_iff_eq.mp he
      have : (a, v) = p := by
        rw [hap, ← h]
      rw [this]
      exact List.mem_cons_self p rest
    | false =>
      rw [he] at h
      exact List.mem_cons_of_mem _ (ih h)

theorem vLoop_pair_of_collision (fs : FsView) (rn : Str) (M : List MoveIn) :
    ∀ (moves : List MoveIn) (dests seen : List (Str × Str)),
      (∀ x ∈ moves, x ∈ M) →
      DestsFromM fs rn dests M →
      (vLoop fs rn moves dests seen).2.1 ≠ [] →
      ∃ a ∈ M, ∃ b ∈ M,
        MovePasses fs rn (stripSlashes (pyNormSlash a.old_rel))
          (stripSlashes (pyNormSlash a.new_rel)) ∧
        MovePasses fs rn (stripSlashes (pyNormSlash b.old_rel))
          (stripSlashes (pyNormSlash b.new_rel)) ∧
        stripSlashes (pyNormSlash a.new_rel) = stripSlashes (pyNormSlash b.new_rel) ∧
        stripSlashes (pyNormSlash a.old_rel) ≠ stripSlashes (pyNormSlash b.old_rel) := by
  intro moves
  induction moves with
  | nil =>
    intro dests seen _ _ hne
    simp [vLoop] at hne
  | cons h rest ih =>
    intro dests seen hsub hdfm hne
    rw [vLoop] at hne
    dsimp only at hne
    set p := stripSlashes (pyNormSlash h.old_rel) with hp
    set q := stripSlashes (pyNormSlash h.new_rel) with hq
    have hsub' : ∀ x ∈ rest, x ∈ M := fun x hx => hsub x (List.mem_cons_of_mem h hx)
    by_cases hnoop : p = q
    · rw [if_pos hnoop] at hne
      exact ih dests seen hsub' hdfm hne
    · rw [if_neg hnoop] at hne
      by_cases hdup : seen.contains (p, q) = true
      · rw [if_pos hdup] at hne
        exact ih dests seen hsub' hdfm hne
      · rw [if_neg hdup] at hne
        by_cases hren : joinSlash (splitSlash p).dropLast = joinSlash (splitSlash q).dropLast ∧
            (splitSlash p).getLastD [] ≠ (splitSlash q).getLastD []
        · rw [if_pos hren] at hne
          dsimp only at hne
          exact ih dests _ hsub' hdfm hne
        · rw [if_neg hren] at hne
          by_cases hpcbo : path_contains_bundle p = true
          · rw [if_pos hpcbo] at hne
            dsimp only at hne
            exact ih dests _ hsub' hdfm hne
          · rw [if_neg hpcbo] at hne
            by_cases hpcbn : path_contains_bundle q = true
            · rw [if_pos hpcbn] at hne
              dsimp only at hne
              exact ih dests _ hsub' hdfm hne
            · rw [if_neg hpcbn] at hne
              by_cases hex : ¬ fs.existsAt p = true
              · rw [if_pos hex] at hne
                dsimp only at hne
                exact ih dests _ hsub' hdfm hne
              · rw [if_neg hex] at hne
                by_cases hnf : ¬ fs.isFile p = true ∧
                    ¬ (fs.isDir p && (is_known_bundle_folder (srcNameOf rn p) ||
                      is_macos_bundle (srcNameOf rn p))) = true
                · rw [if_pos hnf] at hne
                  dsimp only at hne
                  exact ih dests _ hsub' hdfm hne
                · rw [if_neg hnf] at hne
                  have hpassh : MovePasses fs rn p q :=
                    ⟨hnoop, hren, hpcbo, hpcbn, not_not.mp hex, hnf⟩
                  cases hlk : dests.lookup q with
                  | some o2 =>
                    rw [hlk] at hne
                    dsimp only at hne
                    by_cases ho2 : o2 ≠ p
                    · obtain ⟨m0, hm0, he1, he2, hpassm⟩ :=
                        hdfm (q, o2) (lookup_mem_str dests q o2 hlk)
                      refine ⟨m0, hm0, h, hsub h (List.mem_cons_self h rest), ?_, hpassh, ?_, ?_⟩
                      · rw [he1, he2]
                        exact hpassm
                      · exact he2
                      · rw [he1]
                        exact fun hcon => ho2 hcon
                    · rw [if_neg ho2] at hne
                      exact ih dests _ hsub' hdfm hne
                  | none =>
                    rw [hlk] at hne
                    dsimp only at hne
                    refine ih _ _ hsub' ?_ hne
                    intro qo hqo
                    rcases List.mem_cons.mp hqo with rfl | hqo2
                    · exact ⟨h, hsub h (List.mem_cons_self h rest), rfl, rfl, hpassh⟩
                    · exact hdfm qo hqo2

theorem validate_plan_collision_characterization (fs : FsView) (rn : Str)
    (moves : List MoveIn) :
    (∃ cs, (validate_plan fs true rn moves).outcome = VOutcome.collisionFailure cs) ↔
    (∃ a ∈ moves, ∃ b ∈ moves,
      MovePasses fs rn (stripSlashes (pyNormSlash a.old_rel))
        (stripSlashes (pyNormSlash a.new_rel)) ∧
      MovePasses fs rn (stripSlashes (pyNormSlash b.old_rel))
        (stripSlashes (pyNormSlash b.new_rel)) ∧
      stripSlashes (pyNormSlash a.new_rel) = stripSlashes (pyNormSlash b.new_rel) ∧
      stripSlashes (pyNormSlash a.old_rel) ≠ stripSlashes (pyNormSlash b.old_rel)) := by
  rw [validate_plan]
  rw [if_neg (by simp)]
  dsimp only
  by_cases hcols : (vLoop fs rn moves [] []).2.1 ≠ []
  · rw [if_pos hcols]
    constructor
    · intro _
      exact vLoop_pair_of_collision fs rn moves moves [] [] (fun x hx => hx)
        (fun qo hqo => absurd hqo (List.not_mem_nil qo)) hcols
    · intro _
      exact ⟨(vLoop fs rn moves [] []).2.1, rfl⟩
  · rw [if_neg hcols]
    constructor
    · intro ⟨cs, hcs⟩
      exact absurd hcs (by simp)
    · intro ⟨a, ha, b, hb, hpa, hpb, heq, hne⟩
      exact absurd (vLoop_collision_of_pair fs rn moves [] []
        (fun p q hpq => absurd hpq (List.not_mem_nil (p, q))) a ha b hb hpa hpb heq hne) hcols

theorem validate_ok_eq (fs : FsView) (rn : Str) (moves : List MoveIn) (l : List MoveOut)
    (h : (validate_plan fs true rn moves).outcome = VOutcome.ok l) :
    l = (vLoop fs rn moves [] []).2.2 := by
  rw [validate_plan] at h
  rw [if_neg (by simp)] at h
  dsimp only at h
  by_cases hcols : (vLoop fs rn moves [] []).2.1 ≠ []
  · rw [if_pos hcols] at h
    exact absurd h (by simp)
  · rw [if_neg hcols] at h
    injection h with h2
    exact h2.symm

theorem mem_stripSlashes (s : Str) (c : Char) (h : c ∈ stripSlashes s) : c ∈ s := by
  rw [stripSlashes] at h
  rw [List.mem_reverse] at h
  have h1 := (List.dropWhile_sublist _).mem h
  rw [List.mem_reverse] at h1
  exact (List.dropWhile_sublist _).mem h1


theorem stripSlashes_getLast_ne (s : Str) (a : Char)
    (h : (stripSlashes s).getLast? = some a) : a ≠ '/' := by
  rw [stripSlashes, List.getLast?_reverse] at h
  have := List.head?_dropWhile_not (fun c => decide (c = '/')) (s.dropWhile (· = '/')).reverse
  rw [h] at this
  simpa using this

theorem stripSlashes_head_ne (s : Str) (a : Char)
    (h : (stripSlashes s).head? = some a) : a ≠ '/' := by
  rw [stripSlashes, List.head?_reverse] at h
  set y := (s.dropWhile (· = '/')).reverse with hy
  have hsfx : y.dropWhile (· = '/') <:+ y := List.dropWhile_suffix _
  obtain ⟨t, ht⟩ := hsfx
  have hne : y.dropWhile (· = '/') ≠ [] := by
    intro h0
    rw [h0] at h
    simp at h
  have : y.getLast? = some a := by
    rw [← ht, List.getLast?_append_of_ne_nil t hne]
    exact h
  rw [hy, List.getLast?_reverse] at this
  have h2 := List.head?_dropWhile_not (fun c => decide (c = '/')) s
  rw [this] at h2
  simpa using h2

/-! ### Match-date lemmas (rules.py 86-103) -/

theorem dateCheck_nil (c : MatchCriteria) : c.dateCheck [] = true := by
  rw [MatchCriteria.dateCheck, if_neg]
  intro h
  exact h.2 rfl

theorem pyTruthyS_ne_none (o : Option Str) (h : pyTruthyS o = true) : o ≠ none := by
  cases o with
  | none => simp [pyTruthyS] at h
  | some s => simp

theorem dateCheck_unparseable (c : MatchCriteria) (modified : Str)
    (ht : (pyTruthyS c.date_start || pyTruthyS c.date_end) = true)
    (hm : modified ≠ []) (hp : parseISO modified = none) :
    c.dateCheck modified = false := by
  rw [MatchCriteria.dateCheck, if_pos ?_]
  · rw [hp]
    dsimp only
    rw [ht]
    rfl
  · refine ⟨?_, hm⟩
    rcases Bool.or_eq_true _ _ |>.mp ht with h | h
    · exact Or.inl (pyTruthyS_ne_none _ h)
    · exact Or.inr (pyTruthyS_ne_none _ h)

theorem effModified_empty (fi : FileInfo)
    (hdt : fi.date_taken = none ∨ fi.date_taken = some []) (hmod : fi.modified = []) :
    effModified fi = [] := by
  rcases hdt with h | h <;> rw [effModified, h] <;> simp [hmod]

theorem matches_no_timestamp (c : MatchCriteria) (fi : FileInfo)
    (hdt : fi.date_taken = none ∨ fi.date_taken = some []) (hmod : fi.modified = []) :
    c.matches fi = MatchCriteria.matches
      { c with date_start := none, date_end := none } fi := by
  have hm : effModified fi = [] := effModified_empty fi hdt hmod
  rw [MatchCriteria.matches, MatchCriteria.matches]
  rw [hm]
  simp only [dateCheck_nil]

theorem matches_unparseable (c : MatchCriteria) (fi : FileInfo)
    (ht : (pyTruthyS c.date_start || pyTruthyS c.date_end) = true)
    (hmod : effModified fi ≠ []) (hp : parseISO (effModified fi) = none) :
    c.matches fi = false := by
  rw [MatchCriteria.matches]
  repeat' split
  all_goals try rfl
  all_goals exact dateCheck_unparseable c _ ht hmod hp

/-! ### Normalization consequences for validated moves -/

theorem any_false_all (l : List Str) (p : Str → Bool) (h : l.any p = false) :
    ∀ x ∈ l, p x = false := by
  intro x hx
  have := List.any_eq_false.mp h x hx
  simpa using this

theorem vNorm_no_backslash (s : Str) : '\\' ∉ stripSlashes (pyNormSlash s) := by
  intro h
  exact pyNormSlash_no_backslash s (mem_stripSlashes _ _ h)

theorem pyNormSlash_vNorm (s : Str) :
    pyNormSlash (stripSlashes (pyNormSlash s)) = stripSlashes (pyNormSlash s) :=
  pyNormSlash_of_no_backslash _ (vNorm_no_backslash s)

/-! ### Dry-run frame of the executor -/

/-- The folder-creation step of `createFolders` with `dry_run := true`. -/
def cfDryStep (a : World × List Str) (folder_rel0 : Str) : World × List Str :=
  let folder_rel := stripSlashes (pyNormSlash folder_rel0)
  if folder_rel = [] then a
  else if a.1.existsAt folder_rel then a
  else (a.1, a.2 ++ [folder_rel])

theorem cfDryStep_fst (a : World × List Str) (f : Str) : (cfDryStep a f).1 = a.1 := by
  rw [cfDryStep]
  split
  · rfl
  · split
    · rfl
    · rfl

theorem createFolders_fold_dry (folders : List Str) :
    ∀ (st : World × List Str), (folders.foldl cfDryStep st).1 = st.1 := by
  induction folders with
  | nil => intro st; rfl
  | cons f fs ih =>
    intro st
    rw [List.foldl_cons, ih (cfDryStep st f), cfDryStep_fst]

theorem createFolders_dry_world (folders : List Str) (w : World) :
    (createFolders folders true w).1 = w := by
  show (folders.foldl cfDryStep (w, [])).1 = w
  exact createFolders_fold_dry folders (w, [])

theorem apply_plan_body_dry_frame (re : Bool) (rd : Nat) (dev : Str → Nat)
    (folders : List Str) (moves : List MoveIn) (acd : Bool) (w : World) :
    (apply_plan_body re rd dev folders moves true acd w).2 = w := by
  rw [apply_plan_body]
  split
  · rfl
  · exact createFolders_dry_world folders w

/-! ### Concrete fixtures -/

def fileDocs : FileInfo := { rel_path := "Docs/report.txt".data, ext := ".txt".data }

def ruleKeepInDocs : OrganizationRule :=
  { name := "Keep docs".data, matchC := { ext_in := some [".txt".data] },
    target_template := "Docs/{original_name}".data, priority := 10 }

def ruleArchive : OrganizationRule :=
  { name := "Archive rule".data, matchC := { ext_in := some [".txt".data] },
    target_template := "Archive/{original_name}".data, priority := 5 }

def fileA1 : FileInfo := { rel_path := "folder1/file.txt".data, ext := ".txt".data }

def fileA2 : FileInfo := { rel_path := "folder2/file.txt".data, ext := ".txt".data }

def ruleCombined : OrganizationRule :=
  { name := "Test Rule".data, matchC := { ext_in := some [".txt".data] },
    target_template := "combined/file.txt".data, priority := 10 }

def moveW : MoveOut :=
  { old_rel := "folder2/file.txt".data, new_rel := "combined/file_1.txt".data,
    reason := "Test Rule".data }

def seenW : List Str := ["combined/file.txt".data]

def fsRename : FsView :=
  ⟨fun p => p == "a/x.mp4".data || p == "Movies/y.mp4".data, fun _ => false⟩

def planMasked : List MoveIn :=
  [{ old_rel := "a/x.mp4".data, new_rel := "Movies/x.mp4".data },
   { old_rel := "Movies/y.mp4".data, new_rel := "Movies/x.mp4".data }]

def fsC5 : FsView := ⟨fun p => p == "VIDEO_TS/file.vob".data, fun _ => false⟩

def mvC5 : MoveIn := { old_rel := "VIDEO_TS/file.vob".data, new_rel := "Movies/file.vob".data }

def mvC5out : MoveOut :=
  { old_rel := "VIDEO_TS/file.vob".data, new_rel := "Movies/file.vob".data,
    reason := "No reason provided".data }

def fsBundleWhole : FsView := ⟨fun _ => false, fun p => p == "Project.fcp".data⟩

def mvBundleWhole : MoveIn :=
  { old_rel := "Project.fcp".data, new_rel := "Projects/Project.fcp".data }

def mvBWout : MoveOut :=
  { old_rel := "Project.fcp".data, new_rel := "Projects/Project.fcp".data,
    reason := "No reason provided".data }

def fsC7 : FsView := ⟨fun p => p == "../secret/f.txt".data, fun _ => false⟩

def mvC7 : MoveIn := { old_rel := "../secret/f.txt".data, new_rel := "Elsewhere/f.txt".data }

def mvC7out : MoveOut :=
  { old_rel := "../secret/f.txt".data, new_rel := "Elsewhere/f.txt".data,
    reason := "No reason provided".data }

def fileC6 : FileInfo := { rel_path := "docs/report.txt".data, ext := ".txt".data }

def ruleTypeOnly : OrganizationRule :=
  { name := "By type".data, matchC := {},
    target_template := "Sorted/{type}".data, priority := 1 }

def cDated : MatchCriteria :=
  { date_start := some "2023-12-24T00:00:00".data,
    date_end := some "2023-12-26T23:59:59".data }

def fiUndated : FileInfo := { rel_path := "a.jpg".data, ext := ".jpg".data }

/-! ### The claims -/

/-- C1: the spec says the first matching rule alone determines the outcome and
a record whose rendered destination equals its source is skipped with no move;
in the code the no-op `continue` (rules.py 282-283) continues to the *next
rule*, so a lower-priority rule still yields a move for the record.  Here the
top-priority rule matches and renders the source itself, yet the priority-5
rule produces the move. -/
theorem c1_noop_falls_through_to_lower_priority :
    ruleKeepInDocs.matchC.matches fileDocs = true ∧
    pyNormSlash (ruleKeepInDocs.render_target fileDocs) = pyNormSlash fileDocs.rel_path ∧
    ruleArchive.priority < ruleKeepInDocs.priority ∧
    sortRulesDesc [ruleKeepInDocs, ruleArchive] = [ruleKeepInDocs, ruleArchive] ∧
    generate_moves_from_rules [fileDocs] [ruleKeepInDocs, ruleArchive] =
      [{ old_rel := "Docs/report.txt".data, new_rel := "Archive/report.txt".data,
         reason := "Archive rule".data }] := by
  decide

/-- C2: the moves yielded by `generate_moves_from_rules` have pairwise-distinct
`new_rel` destinations, for every rule list and record stream. -/
theorem c2_generated_destinations_pairwise_distinct (files : List FileInfo)
    (rules : List OrganizationRule) :
    (generate_moves_from_rules files rules).Pairwise (fun a b => a.new_rel ≠ b.new_rel) :=
  (genAux_invariant (sortRulesDesc rules) files [] []).1

/-- C3 (amended): `validate_plan` fails the whole call with a destination
collision exactly when two moves that *survive the earlier per-move filters*
(no-op, duplicate, rename, bundle, missing/not-file source) map distinct
normalized sources to one normalized destination; a filtered-out move's
destination is never recorded, so a collision involving it does not raise. -/
theorem c3_collision_only_among_surviving_moves (fs : FsView) (rn : Str)
    (moves : List MoveIn) :
    (∃ cs, (validate_plan fs true rn moves).outcome = VOutcome.collisionFailure cs) ↔
    (∃ a ∈ moves, ∃ b ∈ moves,
      MovePasses fs rn (stripSlashes (pyNormSlash a.old_rel))
        (stripSlashes (pyNormSlash a.new_rel)) ∧
      MovePasses fs rn (stripSlashes (pyNormSlash b.old_rel))
        (stripSlashes (pyNormSlash b.new_rel)) ∧
      stripSlashes (pyNormSlash a.new_rel) = stripSlashes (pyNormSlash b.new_rel) ∧
      stripSlashes (pyNormSlash a.old_rel) ≠ stripSlashes (pyNormSlash b.old_rel)) :=
  validate_plan_collision_characterization fs rn moves

/-- C3 counterexample: `planMasked` holds two moves with distinct normalized
sources and the same normalized destination "Movies/x.mp4", yet validation
succeeds: the second move is dropped by the rename filter before the collision
check, so its destination is never recorded. -/
theorem c3_counterexample_rename_masks_collision :
    (∃ a ∈ planMasked, ∃ b ∈ planMasked,
      stripSlashes (pyNormSlash a.old_rel) ≠ stripSlashes (pyNormSlash b.old_rel) ∧
      stripSlashes (pyNormSlash a.new_rel) = stripSlashes (pyNormSlash b.new_rel)) ∧
    (validate_plan fsRename true "root".data planMasked).outcome =
      VOutcome.ok [{ old_rel := "a/x.mp4".data, new_rel := "Movies/x.mp4".data,
                     reason := "No reason provided".data }] := by
  decide

/-- C4: a colliding rendered destination gets the smallest unused numeric
suffix that is at least the cached counter for that base (so repeat collisions
resume rather than restart), the suffix goes on the stem and never on the
extension (`mkCandidate`), and Scenario A produces "combined/file.txt" then
"combined/file_1.txt". -/
theorem c4_collision_suffix_smallest_unused (seen : List Str) (ctrs : List (Str × Nat))
    (base cand : Str) (c : Nat) (hinv : CounterInv seen ctrs)
    (hfind : findSlot seen base ((ctrs.lookup base).getD 1) = some (cand, c)) :
    (cand = mkCandidate base c ∧ 1 ≤ c ∧
      seen.contains (mkCandidate base c) = false ∧
      (∀ j, 1 ≤ j → j < c → seen.contains (mkCandidate base j) = true)) ∧
    mkCandidate "combined/file.txt".data 1 = "combined/file_1.txt".data ∧
    generate_moves_from_rules [fileA1, fileA2] [ruleCombined] =
      [{ old_rel := "folder1/file.txt".data, new_rel := "combined/file.txt".data,
         reason := "Test Rule".data }, moveW] := by
  refine ⟨?_, by decide, by decide⟩
  exact findSlot_least seen ctrs base cand c hinv hfind

theorem c4_witness :
    CounterInv seenW [] ∧
    findSlot seenW "combined/file.txt".data
        ((([] : List (Str × Nat)).lookup "combined/file.txt".data).getD 1) =
      some ("combined/file_1.txt".data, 1) ∧
    (("combined/file_1.txt".data = mkCandidate "combined/file.txt".data 1 ∧ 1 ≤ 1 ∧
        seenW.contains (mkCandidate "combined/file.txt".data 1) = false ∧
        (∀ j, 1 ≤ j → j < 1 →
          seenW.contains (mkCandidate "combined/file.txt".data j) = true)) ∧
      mkCandidate "combined/file.txt".data 1 = "combined/file_1.txt".data ∧
      generate_moves_from_rules [fileA1, fileA2] [ruleCombined] =
        [{ old_rel := "folder1/file.txt".data, new_rel := "combined/file.txt".data,
           reason := "Test Rule".data }, moveW]) :=
  ⟨fun p hp => absurd hp (List.not_mem_nil p), by decide,
   c4_collision_suffix_smallest_unused seenW [] "combined/file.txt".data
     "combined/file_1.txt".data 1 (fun p hp => absurd hp (List.not_mem_nil p)) (by decide)⟩

/-- C5 (amended): the validator's bundle-ancestor rejection consults only the
macOS bundle *extensions* on the strict-ancestor segments
(`path_contains_bundle`); every returned move has no such ancestor on either
side, and a bundle moved whole (final segment) is not rejected.  Known bundle
*folder names* such as VIDEO_TS are not consulted by this check (see the
counterexample). -/
theorem c5_bundle_ancestor_extensions_only (fs : FsView) (rn : Str) (moves : List MoveIn)
    (l : List MoveOut)
    (h : (validate_plan fs true rn moves).outcome = VOutcome.ok l) :
    (∀ m ∈ l,
      path_contains_bundle m.old_rel = false ∧
      path_contains_bundle m.new_rel = false ∧
      (∀ seg ∈ (splitSlash m.old_rel).dropLast, is_macos_bundle seg = false) ∧
      (∀ seg ∈ (splitSlash m.new_rel).dropLast, is_macos_bundle seg = false)) ∧
    (validate_plan fsBundleWhole true "root".data [mvBundleWhole]).outcome =
      VOutcome.ok [mvBWout] := by
  refine ⟨?_, by decide⟩
  intro m hm
  rw [validate_ok_eq fs rn moves l h] at hm
  obtain ⟨⟨m0, hm0, ho, hn⟩, hp⟩ := vLoop_valid_shape fs rn moves [] [] m hm
  rw [vNorm] at ho hn
  have hbo : path_contains_bundle m.old_rel = false := by simpa using hp.2.2.1
  have hbn : path_contains_bundle m.new_rel = false := by simpa using hp.2.2.2.1
  refine ⟨hbo, hbn, ?_, ?_⟩
  · have hb2 := hbo
    rw [path_contains_bundle, ho, pyNormSlash_vNorm] at hb2
    rw [ho]
    exact any_false_all _ _ hb2
  · have hb2 := hbn
    rw [path_contains_bundle, hn, pyNormSlash_vNorm] at hb2
    rw [hn]
    exact any_false_all _ _ hb2

/-- C5 counterexample: "VIDEO_TS" is a known bundle folder, yet a move of a
file *inside* it passes validation, because `path_contains_bundle` never
consults `BUNDLE_FOLDERS`. -/
theorem c5_counterexample_bundle_folder_ancestor_accepted :
    is_known_bundle_folder "VIDEO_TS".data = true ∧
    (validate_plan fsC5 true "root".data [mvC5]).outcome = VOutcome.ok [mvC5out] := by
  decide

theorem c5_witness :
    (validate_plan fsC5 true "root".data [mvC5]).outcome = VOutcome.ok [mvC5out] ∧
    ((∀ m ∈ [mvC5out],
        path_contains_bundle m.old_rel = false ∧
        path_contains_bundle m.new_rel = false ∧
        (∀ seg ∈ (splitSlash m.old_rel).dropLast, is_macos_bundle seg = false) ∧
        (∀ seg ∈ (splitSlash m.new_rel).dropLast, is_macos_bundle seg = false)) ∧
      (validate_plan fsBundleWhole true "root".data [mvBundleWhole]).outcome =
        VOutcome.ok [mvBWout]) :=
  ⟨by decide,
   c5_bundle_ancestor_extensions_only fsC5 "root".data [mvC5] [mvC5out] (by decide)⟩

/-- C6: for every rule and record with a non-empty relative path, the rendered
target ends with the record's original filename (its last `/`-segment), both
as a list suffix and under the Python `endswith` model. -/
theorem c6_render_target_ends_with_original_name (rule : OrganizationRule)
    (fi : FileInfo) (hne : fi.rel_path ≠ []) :
    lastSegR fi.rel_path <:+ rule.render_target fi ∧
    endsWithS (rule.render_target fi) (lastSegR fi.rel_path) = true := by
  have h := render_target_endsWith rule fi
  exact ⟨h, (endsWithS_iff _ _).mpr h⟩

theorem c6_witness :
    fileC6.rel_path ≠ [] ∧
    (lastSegR fileC6.rel_path <:+ ruleTypeOnly.render_target fileC6 ∧
     endsWithS (ruleTypeOnly.render_target fileC6) (lastSegR fileC6.rel_path) = true) :=
  ⟨by decide, c6_render_target_ends_with_original_name ruleTypeOnly fileC6 (by decide)⟩

/-- C7 (amended): every move returned by `validate_plan` is normalized —
source and destination differ, contain no backslash, and neither starts nor
ends with a slash (so neither is absolute).  Parent-traversal ".." segments
are *not* filtered (see the counterexample). -/
theorem c7_validated_moves_normalized (fs : FsView) (rn : Str) (moves : List MoveIn)
    (l : List MoveOut)
    (h : (validate_plan fs true rn moves).outcome = VOutcome.ok l) :
    ∀ m ∈ l,
      m.old_rel ≠ m.new_rel ∧
      '\\' ∉ m.old_rel ∧ '\\' ∉ m.new_rel ∧
      m.old_rel.head? ≠ some '/' ∧ m.new_rel.head? ≠ some '/' ∧
      m.old_rel.getLast? ≠ some '/' ∧ m.new_rel.getLast? ≠ some '/' := by
  intro m hm
  rw [validate_ok_eq fs rn moves l h] at hm
  obtain ⟨⟨m0, hm0, ho, hn⟩, hp⟩ := vLoop_valid_shape fs rn moves [] [] m hm
  rw [vNorm] at ho hn
  refine ⟨hp.1, ?_, ?_, ?_, ?_, ?_, ?_⟩
  · rw [ho]; exact vNorm_no_backslash _
  · rw [hn]; exact vNorm_no_backslash _
  · rw [ho]; intro hh; exact stripSlashes_head_ne _ _ hh rfl
  · rw [hn]; intro hh; exact stripSlashes_head_ne _ _ hh rfl
  · rw [ho]; intro hh; exact stripSlashes_getLast_ne _ _ hh rfl
  · rw [hn]; intro hh; exact stripSlashes_getLast_ne _ _ hh rfl

/-- C7 counterexample: a move whose source keeps a ".." parent-traversal
segment is returned unchanged by `validate_plan`; no check removes or rejects
it. -/
theorem c7_counterexample_dotdot_accepted :
    (validate_plan fsC7 true "root".data [mvC7]).outcome = VOutcome.ok [mvC7out] ∧
    "..".data ∈ splitSlash mvC7out.old_rel := by
  decide

theorem c7_witness :
    (validate_plan fsC7 true "root".data [mvC7]).outcome = VOutcome.ok [mvC7out] ∧
    (∀ m ∈ [mvC7out],
      m.old_rel ≠ m.new_rel ∧
      '\\' ∉ m.old_rel ∧ '\\' ∉ m.new_rel ∧
      m.old_rel.head? ≠ some '/' ∧ m.new_rel.head? ≠ some '/' ∧
      m.old_rel.getLast? ≠ some '/' ∧ m.new_rel.getLast? ≠ some '/') :=
  ⟨by decide, c7_validated_moves_normalized fsC7 "root".data [mvC7] [mvC7out] (by decide)⟩

/-- C8: the spec promises a dry run mutates nothing and returns a report; in
the code `apply_plan`'s first statement (executor.py 85) imports `load_jsonl`
and `save_jsonl` from `.utils`, which defines neither, so *every* call raises
`ImportError` and in particular returns no report.  The first conjunct records
that behaviour; the second shows that the rest of the function
(`apply_plan_body`, what would run if the import succeeded) indeed leaves the
world — files, directories and journals — untouched under `dry_run = true` on
every path, including the missing-root error path. -/
theorem c8_apply_plan_import_error_and_dry_frame (re : Bool) (rd : Nat)
    (dev : Str → Nat) (folders : List Str) (moves : List MoveIn) (acd : Bool)
    (w : World) :
    apply_plan re rd dev folders moves true acd w =
      (Except.error (PyError.importError
        "cannot import name load_jsonl from reorganize_hdd.utils".data), w) ∧
    (apply_plan_body re rd dev folders moves true acd w).2 = w :=
  ⟨rfl, apply_plan_body_dry_frame re rd dev folders moves acd w⟩

/-- C9: every move yielded by `generate_moves_from_rules` has
`old_rel ≠ new_rel`, including collision-suffixed destinations. -/
theorem c9_moves_never_noop (files : List FileInfo) (rules : List OrganizationRule) :
    ∀ m ∈ generate_moves_from_rules files rules, m.old_rel ≠ m.new_rel :=
  fun m hm => (genAux_invariant (sortRulesDesc rules) files [] []).2.2 m hm

theorem c9_witness :
    moveW ∈ generate_moves_from_rules [fileA1, fileA2] [ruleCombined] ∧
    moveW.old_rel ≠ moveW.new_rel :=
  ⟨by decide, c9_moves_never_noop [fileA1, fileA2] [ruleCombined] moveW (by decide)⟩

/-- C10: a record with no timestamp (absent or empty `date_taken` and empty
`modified`) satisfies the date criterion of any `MatchCriteria` — the date
check returns `true` and matching coincides with the same criteria without
date bounds — while a record whose available timestamp does not parse is
treated as non-matching when a date bound is set. -/
theorem c10_undated_records_match_date_rules (c : MatchCriteria) (fi : FileInfo)
    (hdt : fi.date_taken = none ∨ fi.date_taken = some []) (hmod : fi.modified = []) :
    (c.dateCheck (effModified fi) = true ∧
     c.matches fi =
       MatchCriteria.matches { c with date_start := none, date_end := none } fi) ∧
    (∀ (c2 : MatchCriteria) (fi2 : FileInfo),
      (pyTruthyS c2.date_start || pyTruthyS c2.date_end) = true →
      effModified fi2 ≠ [] → parseISO (effModified fi2) = none →
      c2.matches fi2 = false) := by
  refine ⟨⟨?_, matches_no_timestamp c fi hdt hmod⟩,
    fun c2 fi2 ht hm hp => matches_unparseable c2 fi2 ht hm hp⟩
  rw [effModified_empty fi hdt hmod]
  exact dateCheck_nil c

theorem c10_witness :
    (fiUndated.date_taken = none ∨ fiUndated.date_taken = some []) ∧
    fiUndated.modified = [] ∧
    ((cDated.dateCheck (effModified fiUndated) = true ∧
      cDated.matches fiUndated =
        MatchCriteria.matches
          { cDated with date_start := none, date_end := none } fiUndated) ∧
     (∀ (c2 : MatchCriteria) (fi2 : FileInfo),
       (pyTruthyS c2.date_start || pyTruthyS c2.date_end) = true →
       effModified fi2 ≠ [] → parseISO (effModified fi2) = none →
       c2.matches fi2 = false)) :=
  ⟨Or.inl rfl, rfl, c10_undated_records_match_date_rules cDated fiUndated (Or.inl rfl) rfl⟩
